import Mathlib

/-!
Verification of `grid_snake.py`: a backtracking search for Hamiltonian paths on a
2-D grid, offered in a recursive and a non-recursive (explicit stack) strategy,
plus a textual path renderer.

The Python code is shallowly embedded: the mutable `visited` numpy array and the
mutable `path` list become explicitly threaded values (a `Finset` of cells and a
`List` of cells); the recursive strategy's recursion and the non-recursive
strategy's `while` loop are made total with an explicit fuel parameter, which is
a modelling artifact: theorems below show the fuel bounds chosen suffice, so the
fuel-exhaustion branches are unreachable.  A separate bounds-checked model of
the numpy array (`visGet`/`visSet`, returning `Option`) is used for the claims
about array indexing.
-/

namespace GridSnake

/-- A grid point `(row, column)`; Python `GridPt = tuple[int, int]`. -/
abbrev GridPt : Type := Int × Int

/-- The fixed direction order, Python `_search_dirns = [(+1,0),(-1,0),(0,+1),(0,-1)]`. -/
def searchDirns : List GridPt := [(1, 0), (-1, 0), (0, 1), (0, -1)]

/-- Python `valid_pos(pos, size)`: `0 <= pos[0] < size[0] and 0 <= pos[1] < size[1]`. -/
def valid_pos (pos size : GridPt) : Bool :=
  decide (0 ≤ pos.1) && decide (pos.1 < size.1) && decide (0 ≤ pos.2) && decide (pos.2 < size.2)

/-- `b` is one grid step away from `a` in exactly one of the four directions. -/
def adjacentB (a b : GridPt) : Bool :=
  searchDirns.any fun d => decide (b = (a.1 + d.1, a.2 + d.2))

/-- The set of in-bounds cells of the grid. -/
def gridCells (size : GridPt) : Finset GridPt :=
  Finset.Icc (0, 0) (size.1 - 1, size.2 - 1)

/-- Number of grid cells, as a natural number (Python `size[0] * size[1]`). -/
def totalCells (size : GridPt) : Nat := (size.1 * size.2).toNat

mutual

/-- Shallow embedding of Python `_recursive(pos, end_pos, visited, path)`.

The mutable `visited` array and `path` list are threaded through explicitly, so
the function returns `(success, visited, path)`; Python's `size = visited.shape`
becomes the explicit `size` argument.  `fuel` bounds the recursion depth: the
fuel-exhaustion branch returns `False` with the state unchanged, exactly like
the pruning branch, and is proved unreachable for `fuel ≥ totalCells size + 1`. -/
def recursive_ (endPos size : GridPt) (fuel : Nat) (pos : GridPt)
    (visited : Finset GridPt) (path : List GridPt) :
    Bool × Finset GridPt × List GridPt :=
  match fuel with
  | 0 => (false, visited, path)
  | fuel' + 1 =>
    -- Check if this is a valid point, not yet visited.
    if ¬ valid_pos pos size ∨ pos ∈ visited then (false, visited, path)
    else
      -- Mark the position as visited and add the position to the path.
      let visited1 := insert pos visited
      let path1 := path ++ [pos]
      -- If this is the end position and we have visited all the other positions
      -- then we have found the solution.
      if pos = endPos ∧ (path1.length : Int) = size.1 * size.2 then (true, visited1, path1)
      else
        -- Otherwise, try all the possible directions from here.
        match recursiveDirns endPos size fuel' pos searchDirns visited1 path1 with
        | (true, v2, p2) => (true, v2, p2)
        | (false, v2, p2) =>
          -- No solution found in any direction.  Backtrack and remove the
          -- position from the path.
          (false, v2.erase pos, p2.dropLast)
  termination_by (fuel, 0)

/-- The `for δ in _search_dirns` loop inside Python `_recursive`: try the
remaining directions in order, returning on the first success. -/
def recursiveDirns (endPos size : GridPt) (fuel : Nat) (pos : GridPt)
    (dirns : List GridPt) (visited : Finset GridPt) (path : List GridPt) :
    Bool × Finset GridPt × List GridPt :=
  match dirns with
  | [] => (false, visited, path)
  | dirn :: rest =>
    let nextPos : GridPt := (pos.1 + dirn.1, pos.2 + dirn.2)
    match recursive_ endPos size fuel nextPos visited path with
    | (true, v2, p2) => (true, v2, p2)
    | (false, v2, p2) => recursiveDirns endPos size fuel pos rest v2 p2
  termination_by (fuel, dirns.length + 1)

end

/-- One iteration of the `while True` loop in Python `_non_recursive`.

`rpath` and `rdirn` store the Python lists `path` and `path_dirn` most-recent
first (i.e. reversed), so `path[-1]` is the head; `.inr r` models `return r`.
The branches whose guards the loop invariant rules out (empty stacks,
mismatched stack lengths, direction index past the end of `_search_dirns`)
return `.inr []`; they are unreachable, as Python's would-be `IndexError`s are. -/
def nrStep (endPos size : GridPt) (rpath : List GridPt) (rdirn : List Nat)
    (visited : Finset GridPt) :
    (List GridPt × List Nat × Finset GridPt) ⊕ List GridPt :=
  match rpath, rdirn with
  | pos :: restPath, d :: restDirn =>
    -- If we are at the end position and we have visited all the points then we
    -- have found the solution.
    if pos = endPos ∧ ((pos :: restPath).length : Int) = size.1 * size.2 then
      .inr (pos :: restPath).reverse
    else if d ≥ searchDirns.length then
      -- Backtrack: clear this position and remove from path.
      let visited' := visited.erase pos
      match restPath, restDirn with
      | [], _ => .inr []
      | p2 :: rp2, d2 :: rd2 => .inl (p2 :: rp2, (d2 + 1) :: rd2, visited')
      | _ :: _, [] => .inr []
    else
      -- Try the current search direction.
      let dirn := searchDirns.getD d (0, 0)
      let nextPos : GridPt := (pos.1 + dirn.1, pos.2 + dirn.2)
      if ¬ valid_pos nextPos size ∨ nextPos ∈ visited then
        .inl (pos :: restPath, (d + 1) :: restDirn, visited)
      else
        .inl (nextPos :: pos :: restPath, 0 :: d :: restDirn, insert nextPos visited)
  | _, _ => .inr []

/-- The `while True` loop of Python `_non_recursive`, iterated at most `fuel`
times; `none` models fuel exhaustion (proved unreachable for the fuel used in
`nonRecursive_`). -/
def nrLoop (endPos size : GridPt) (fuel : Nat) (rpath : List GridPt) (rdirn : List Nat)
    (visited : Finset GridPt) : Option (List GridPt) :=
  match fuel with
  | 0 => none
  | fuel' + 1 =>
    match nrStep endPos size rpath rdirn visited with
    | .inr result => some result
    | .inl (rpath', rdirn', visited') => nrLoop endPos size fuel' rpath' rdirn' visited'

mutual

/-- The exact number of `while`-loop iterations the non-recursive strategy
spends simulating a call `recursive_ endPos size fuel pos visited path`
(counting the final iteration that pops `pos`, or returns).  Used only to
instantiate the loop fuel; mirrors the structure of `recursive_`. -/
def recursiveSteps (endPos size : GridPt) (fuel : Nat) (pos : GridPt)
    (visited : Finset GridPt) (path : List GridPt) : Nat :=
  match fuel with
  | 0 => 0
  | fuel' + 1 =>
    if ¬ valid_pos pos size ∨ pos ∈ visited then 0
    else
      let visited1 := insert pos visited
      let path1 := path ++ [pos]
      if pos = endPos ∧ (path1.length : Int) = size.1 * size.2 then 1
      else recursiveDirnsSteps endPos size fuel' pos searchDirns visited1 path1
  termination_by (fuel, 0)

/-- Loop-iteration count for `recursiveDirns`; mirrors its structure. -/
def recursiveDirnsSteps (endPos size : GridPt) (fuel : Nat) (pos : GridPt)
    (dirns : List GridPt) (visited : Finset GridPt) (path : List GridPt) : Nat :=
  match dirns with
  | [] => 1
  | dirn :: rest =>
    let nextPos : GridPt := (pos.1 + dirn.1, pos.2 + dirn.2)
    if ¬ valid_pos nextPos size ∨ nextPos ∈ visited then
      recursiveDirnsSteps endPos size fuel pos rest visited path + 1
    else
      match recursive_ endPos size fuel nextPos visited path with
      | (true, _, _) => recursiveSteps endPos size fuel nextPos visited path + 1
      | (false, v2, p2) =>
        recursiveSteps endPos size fuel nextPos visited path +
          recursiveDirnsSteps endPos size fuel pos rest v2 p2 + 1
  termination_by (fuel, dirns.length + 1)

end

/-- Shallow embedding of Python `_non_recursive(start_pos, end_pos, size)`,
as an `Option`: `some r` is a `return r` of the loop (with `r = []` meaning no
solution), `none` is fuel exhaustion.  The fuel is the exact iteration count of
the loop plus one (see `recursiveSteps`); the simulation theorems show the loop
always returns within it. -/
def nonRecursive_ (startPos endPos size : GridPt) : Option (List GridPt) :=
  nrLoop endPos size
    (recursiveSteps endPos size (totalCells size + 1) startPos ∅ [] + 1)
    [startPos] [0] (insert startPos ∅)

/-- Shallow embedding of Python `solve_snake`.  `ValueError` becomes
`Except.error` with the corresponding message; a normal return becomes `.ok`.
The non-recursive branch's `none` (fuel exhaustion, proved unreachable)
is mapped to the no-solution result. -/
def solve_snake (startPos endPos size : GridPt) (method : String) :
    Except String (List GridPt) :=
  if ¬ valid_pos startPos size then .error "Invalid start position"
  else if ¬ valid_pos endPos size then .error "Invalid end position"
  else if startPos = endPos then .error "Start and end positions must be different."
  else if method = "recursive" then
    let r := recursive_ endPos size (totalCells size + 1) startPos ∅ []
    .ok (if r.1 then r.2.2 else [])
  else if method = "non-recursive" then
    match nonRecursive_ startPos endPos size with
    | some p => .ok p
    | none => .ok []
  else .error "Unknown method"

/-- `q` is a Hamiltonian path of the grid from `startPos` to `endPos`:
it starts at `startPos`, ends at `endPos`, has length `rows * cols`, contains
every in-bounds cell exactly once and only in-bounds cells, and each
consecutive pair differs by exactly one of the four unit directions. -/
def isHamPath (startPos endPos size : GridPt) (q : List GridPt) : Prop :=
  q.head? = some startPos ∧ q.getLast? = some endPos ∧
    (q.length : Int) = size.1 * size.2 ∧
    (∀ c, valid_pos c size = true → q.count c = 1) ∧
    (∀ c ∈ q, valid_pos c size = true) ∧
    List.Chain' (fun a b => adjacentB a b = true) q

/-- The search-state invariant: the visited set holds exactly the cells of the
partial path, which is duplicate-free, in bounds, and steps only between
adjacent cells. -/
def StateInv (size : GridPt) (visited : Finset GridPt) (path : List GridPt) : Prop :=
  visited = path.toFinset ∧ path.Nodup ∧ (∀ c ∈ path, valid_pos c size = true) ∧
    List.Chain' (fun a b => adjacentB a b = true) path

/-! ### Renderer: `print_path` -/

/-- A single character-cell write, `chrs[p] = c`. -/
def chrSet (g : GridPt → Char) (p : GridPt) (c : Char) : GridPt → Char :=
  fun q => if q = p then c else g q

/-- The initial character grid of `print_path`: `np.full(chrs_size, ' ')`
followed by `chrs[0:chrs_size[0]:2, 0:chrs_size[1]:4] = '○'`. -/
def chrInit (size : GridPt) : GridPt → Char :=
  fun q =>
    if 0 ≤ q.1 ∧ q.1 < 2 * size.1 - 1 ∧ q.1 % 2 = 0 ∧
        0 ≤ q.2 ∧ q.2 < 4 * size.2 - 3 ∧ q.2 % 4 = 0 then '○' else ' '

/-- One iteration of the path-drawing loop of `print_path`: draw the arrow for
the step `pt1 → pt2` (the unmatched `match δ` cases draw nothing). -/
def chrArrow (g : GridPt → Char) (pt1 pt2 : GridPt) : GridPt → Char :=
  let δ : GridPt := (pt2.1 - pt1.1, pt2.2 - pt1.2)
  let symbolPos : GridPt := (pt1.1 * 2 + δ.1, pt1.2 * 4 + δ.2 * 2)
  if δ = ((1 : Int), (0 : Int)) then chrSet g symbolPos '↓'
  else if δ = ((-1 : Int), (0 : Int)) then chrSet g symbolPos '↑'
  else if δ = ((0 : Int), (1 : Int)) then chrSet g symbolPos '→'
  else if δ = ((0 : Int), (-1 : Int)) then chrSet g symbolPos '←'
  else g

/-- Shallow embedding of Python `print_path(path, size)`, returning the printed
rows instead of writing to stdout.  `none` models the uncaught `IndexError`
raised by `path[0]` (and `path[-1]`) when `path` is empty.  The character grid
is modelled as a total function on ℤ²; the returned rows sample the window
`[0, 2*rows-1) × [0, 4*cols-3)` (the `np.full` shape), which contains every
write made for an in-bounds path. -/
def print_path (path : List GridPt) (size : GridPt) : Option (List String) := do
  let h ← path.head?
  let l ← path.getLast?
  let g0 := chrInit size
  let g1 := chrSet g0 (h.1 * 2, h.2 * 4) 'S'
  let g2 := chrSet g1 (l.1 * 2, l.2 * 4) 'E'
  let g3 := (path.zip path.tail).foldl (fun g pq => chrArrow g pq.1 pq.2) g2
  some ((List.range (2 * size.1 - 1).toNat).map fun (i : Nat) =>
    String.mk ((List.range (4 * size.2 - 3).toNat).map fun (j : Nat) =>
      g3 ((i : Int), (j : Int))))

/-! ### Bounds-checked model of the visited array (for the indexing claims) -/

/-- The `rows × cols` boolean array `np.zeros(size, dtype=bool)`. -/
def mkVis (size : GridPt) : List (List Bool) :=
  List.replicate size.1.toNat (List.replicate size.2.toNat false)

/-- Well-formedness of the array: the shape is exactly `size`. -/
def visWF (size : GridPt) (vis : List (List Bool)) : Prop :=
  vis.length = size.1.toNat ∧ ∀ row ∈ vis, row.length = size.2.toNat

/-- `visited[*pos]` as a checked read: `none` models an index error.  Negative
indices are rejected outright, so numpy's negative-index wrap-around is
treated as a failure, and the `isSome` theorems below show it is unreachable. -/
def visGet (vis : List (List Bool)) (pos : GridPt) : Option Bool :=
  if pos.1 < 0 ∨ pos.2 < 0 then none
  else do
    let row ← vis[pos.1.toNat]?
    row[pos.2.toNat]?

/-- `visited[*pos] = b` as a checked write. -/
def visSet (vis : List (List Bool)) (pos : GridPt) (b : Bool) :
    Option (List (List Bool)) :=
  if pos.1 < 0 ∨ pos.2 < 0 then none
  else
    match vis[pos.1.toNat]? with
    | none => none
    | some row =>
      match row[pos.2.toNat]? with
      | none => none
      | some _ => some (vis.set pos.1.toNat (row.set pos.2.toNat b))

mutual

/-- `_recursive` over the checked array model: every read and write of the
visited array goes through `visGet`/`visSet`, and the `or` short-circuit of
`if not valid_pos(pos, size) or visited[*pos]` is the nested `if`. -/
def recursiveC (endPos size : GridPt) (fuel : Nat) (pos : GridPt)
    (vis : List (List Bool)) (path : List GridPt) :
    Option (Bool × List (List Bool) × List GridPt) :=
  match fuel with
  | 0 => some (false, vis, path)
  | fuel' + 1 =>
    if ¬ valid_pos pos size then some (false, vis, path)
    else
      match visGet vis pos with
      | none => none
      | some true => some (false, vis, path)
      | some false =>
        match visSet vis pos true with
        | none => none
        | some vis1 =>
          let path1 := path ++ [pos]
          if pos = endPos ∧ (path1.length : Int) = size.1 * size.2 then
            some (true, vis1, path1)
          else
            match recursiveDirnsC endPos size fuel' pos searchDirns vis1 path1 with
            | none => none
            | some (true, v2, p2) => some (true, v2, p2)
            | some (false, v2, p2) =>
              match visSet v2 pos false with
              | none => none
              | some v3 => some (false, v3, p2.dropLast)
  termination_by (fuel, 0)

/-- The direction loop of `_recursive` over the checked array model. -/
def recursiveDirnsC (endPos size : GridPt) (fuel : Nat) (pos : GridPt)
    (dirns : List GridPt) (vis : List (List Bool)) (path : List GridPt) :
    Option (Bool × List (List Bool) × List GridPt) :=
  match dirns with
  | [] => some (false, vis, path)
  | dirn :: rest =>
    let nextPos : GridPt := (pos.1 + dirn.1, pos.2 + dirn.2)
    match recursiveC endPos size fuel nextPos vis path with
    | none => none
    | some (true, v2, p2) => some (true, v2, p2)
    | some (false, v2, p2) => recursiveDirnsC endPos size fuel pos rest v2 p2
  termination_by (fuel, dirns.length + 1)

end

/-- One iteration of the `_non_recursive` loop over the checked array model;
the `valid_pos` short-circuit guards the `visited[*next_pos]` read. -/
def nrStepC (endPos size : GridPt) (rpath : List GridPt) (rdirn : List Nat)
    (vis : List (List Bool)) :
    Option ((List GridPt × List Nat × List (List Bool)) ⊕ List GridPt) :=
  match rpath, rdirn with
  | pos :: restPath, d :: restDirn =>
    if pos = endPos ∧ ((pos :: restPath).length : Int) = size.1 * size.2 then
      some (.inr (pos :: restPath).reverse)
    else if d ≥ searchDirns.length then
      match visSet vis pos false with
      | none => none
      | some vis' =>
        match restPath, restDirn with
        | [], _ => some (.inr [])
        | p2 :: rp2, d2 :: rd2 => some (.inl (p2 :: rp2, (d2 + 1) :: rd2, vis'))
        | _ :: _, [] => some (.inr [])
    else
      let dirn := searchDirns.getD d (0, 0)
      let nextPos : GridPt := (pos.1 + dirn.1, pos.2 + dirn.2)
      if ¬ valid_pos nextPos size then
        some (.inl (pos :: restPath, (d + 1) :: restDirn, vis))
      else
        match visGet vis nextPos with
        | none => none
        | some true => some (.inl (pos :: restPath, (d + 1) :: restDirn, vis))
        | some false =>
          match visSet vis nextPos true with
          | none => none
          | some vis' =>
            some (.inl (nextPos :: pos :: restPath, 0 :: d :: restDirn, vis'))
  | _, _ => some (.inr [])

/-! ### Basic facts about the grid model -/

theorem valid_pos_iff {pos size : GridPt} :
    valid_pos pos size = true ↔
      0 ≤ pos.1 ∧ pos.1 < size.1 ∧ 0 ≤ pos.2 ∧ pos.2 < size.2 := by
  simp [valid_pos, and_assoc]

theorem mem_gridCells {c size : GridPt} : c ∈ gridCells size ↔ valid_pos c size = true := by
  cases c with
  | mk x y =>
    simp only [gridCells, Finset.mem_Icc, Prod.le_def, valid_pos_iff]
    constructor <;> intro h <;> [skip; skip] <;> simp_all <;> omega

theorem totalCells_cast {size : GridPt} (h1 : 0 < size.1) (h2 : 0 < size.2) :
    (totalCells size : Int) = size.1 * size.2 := by
  have : 0 ≤ size.1 * size.2 := mul_nonneg h1.le h2.le
  simp [totalCells, Int.toNat_of_nonneg this]

theorem card_gridCells {size : GridPt} (h1 : 0 < size.1) (h2 : 0 < size.2) :
    (gridCells size).card = totalCells size := by
  obtain ⟨m, hm⟩ : ∃ m : Nat, size.1 = (m : Int) :=
    ⟨size.1.toNat, (Int.toNat_of_nonneg h1.le).symm⟩
  obtain ⟨n, hn⟩ : ∃ n : Nat, size.2 = (n : Int) :=
    ⟨size.2.toNat, (Int.toNat_of_nonneg h2.le).symm⟩
  rw [gridCells, Finset.Icc_prod_def, Finset.card_product]
  simp only [Int.card_Icc, totalCells, hm, hn]
  have : ((m : Int) * n).toNat = m * n := by
    rw [← Int.natCast_mul, Int.toNat_natCast]
  rw [this]
  have h1' : ((m : Int) - 1 + 1 - 0).toNat = m := by omega
  have h2' : ((n : Int) - 1 + 1 - 0).toNat = n := by omega
  rw [h1', h2']

/-- Cells on a valid-cell list form a subset of the grid. -/
theorem toFinset_subset_gridCells {size : GridPt} {l : List GridPt}
    (h : ∀ c ∈ l, valid_pos c size = true) : l.toFinset ⊆ gridCells size := by
  intro c hc
  rw [List.mem_toFinset] at hc
  exact mem_gridCells.mpr (h c hc)

theorem card_le_totalCells {size : GridPt} {v : Finset GridPt}
    (hv : v ⊆ gridCells size) (h1 : 0 < size.1) (h2 : 0 < size.2) :
    v.card ≤ totalCells size :=
  card_gridCells h1 h2 ▸ Finset.card_le_card hv

/-! ### List helpers -/

theorem drop_succ_eq_tail_drop {α : Type _} :
    ∀ (d : Nat) (l : List α), l.drop (d + 1) = (l.drop d).tail := by
  intro d
  induction d with
  | zero => intro l; cases l <;> rfl
  | succ d ih =>
    intro l
    cases l with
    | nil => rfl
    | cons a t => simp only [List.drop_succ_cons, List.tail_cons]; exact ih t

theorem getD_of_drop {α : Type _} (dflt : α) :
    ∀ (d : Nat) (l : List α) (a : α) (t : List α), l.drop d = a :: t → l.getD d dflt = a := by
  intro d
  induction d with
  | zero =>
    intro l a t h
    simp only [List.drop_zero] at h
    subst h
    rfl
  | succ d ih =>
    intro l a t h
    cases l with
    | nil => simp at h
    | cons b l' =>
      simp only [List.drop_succ_cons] at h
      simpa using ih l' a t h

/-! ### Restoration: a failed search call returns its state unchanged -/

/-- Bailing out (invalid or already-visited position, or zero fuel) leaves the
state untouched. -/
theorem recursive_bail {endPos size pos : GridPt} {visited : Finset GridPt}
    {path : List GridPt} (h : ¬ valid_pos pos size ∨ pos ∈ visited) (fuel : Nat) :
    recursive_ endPos size fuel pos visited path = (false, visited, path) := by
  cases fuel with
  | zero => rw [recursive_]
  | succ f =>
    rw [recursive_]
    rcases h with h | h
    · simp [h]
    · simp [h]

/-- Restoration for the direction loop, given restoration for the recursive
call at the same fuel. -/
theorem restoreDirns_of (endPos size : GridPt) (fuel : Nat)
    (hP : ∀ pos visited path, (recursive_ endPos size fuel pos visited path).1 = false →
        recursive_ endPos size fuel pos visited path = (false, visited, path)) :
    ∀ pos dirns visited path,
        (recursiveDirns endPos size fuel pos dirns visited path).1 = false →
        recursiveDirns endPos size fuel pos dirns visited path = (false, visited, path) := by
  intro pos dirns
  induction dirns with
  | nil => intro visited path _; rw [recursiveDirns]
  | cons dirn rest ih =>
    intro visited path h
    rw [recursiveDirns] at h ⊢
    rcases hr : recursive_ endPos size fuel (pos.1 + dirn.1, pos.2 + dirn.2) visited path with
      ⟨b, v2, p2⟩
    cases b with
    | true =>
      rw [hr] at h
      have h' : (true : Bool) = false := h
      exact absurd h' (by simp)
    | false =>
      have hrest := hP _ visited path (by rw [hr])
      rw [hr] at hrest
      have hv : v2 = visited := congrArg (fun x => x.2.1) hrest
      have hp : p2 = path := congrArg (fun x => x.2.2) hrest
      rw [hr] at h
      have h' : (recursiveDirns endPos size fuel pos rest v2 p2).1 = false := h
      rw [hv, hp] at h'
      show recursiveDirns endPos size fuel pos rest v2 p2 = (false, visited, path)
      rw [hv, hp]
      exact ih visited path h'

/-- Unfolding `recursive_` at a fresh valid cell that completes the search. -/
theorem recursive_found {endPos size pos : GridPt} {visited : Finset GridPt}
    {path : List GridPt} (f : Nat) (hg : valid_pos pos size = true) (hm : pos ∉ visited)
    (hs : pos = endPos ∧ ((path ++ [pos]).length : Int) = size.1 * size.2) :
    recursive_ endPos size (f + 1) pos visited path =
      (true, insert pos visited, path ++ [pos]) := by
  rw [recursive_]
  rw [if_neg (by simp [hg, hm])]
  rw [if_pos hs]

/-- Unfolding `recursive_` at a fresh valid cell that does not complete the
search: it marks, appends, and dispatches on the direction loop. -/
theorem recursive_step {endPos size pos : GridPt} {visited : Finset GridPt}
    {path : List GridPt} (f : Nat) (hg : valid_pos pos size = true) (hm : pos ∉ visited)
    (hs : ¬(pos = endPos ∧ ((path ++ [pos]).length : Int) = size.1 * size.2)) :
    recursive_ endPos size (f + 1) pos visited path =
      match recursiveDirns endPos size f pos searchDirns (insert pos visited)
          (path ++ [pos]) with
      | (true, v2, p2) => (true, v2, p2)
      | (false, v2, p2) => (false, v2.erase pos, p2.dropLast) := by
  rw [recursive_]
  rw [if_neg (by simp [hg, hm])]
  rw [if_neg hs]

/-- On failure, `recursive_` and `recursiveDirns` return the `visited` set and
`path` they were given, bit-for-bit (the backtracking restoration property). -/
theorem restore_aux (endPos size : GridPt) (fuel : Nat) :
    (∀ pos visited path, (recursive_ endPos size fuel pos visited path).1 = false →
        recursive_ endPos size fuel pos visited path = (false, visited, path)) ∧
    (∀ pos dirns visited path,
        (recursiveDirns endPos size fuel pos dirns visited path).1 = false →
        recursiveDirns endPos size fuel pos dirns visited path = (false, visited, path)) := by
  induction fuel with
  | zero =>
    have hP : ∀ pos visited path, (recursive_ endPos size 0 pos visited path).1 = false →
        recursive_ endPos size 0 pos visited path = (false, visited, path) := by
      intro pos visited path _
      rw [recursive_]
    exact ⟨hP, restoreDirns_of endPos size 0 hP⟩
  | succ f ihf =>
    have hP : ∀ pos visited path, (recursive_ endPos size (f + 1) pos visited path).1 = false →
        recursive_ endPos size (f + 1) pos visited path = (false, visited, path) := by
      intro pos visited path h
      by_cases hg : ¬ valid_pos pos size ∨ pos ∈ visited
      · exact recursive_bail hg _
      · push_neg at hg
        rw [recursive_] at h ⊢
        rw [if_neg (by simp [hg.1, hg.2])] at h ⊢
        by_cases hs : pos = endPos ∧ ((path ++ [pos]).length : Int) = size.1 * size.2
        · rw [if_pos hs] at h
          simp at h
        · rw [if_neg hs] at h ⊢
          rcases hr : recursiveDirns endPos size f pos searchDirns (insert pos visited)
              (path ++ [pos]) with ⟨b, v2, p2⟩
          cases b with
          | true =>
            rw [hr] at h
            have h' : (true : Bool) = false := h
            exact absurd h' (by simp)
          | false =>
            have hrest := ihf.2 pos searchDirns (insert pos visited) (path ++ [pos])
              (by rw [hr])
            rw [hr] at hrest
            rw [hr] at h
            have hv : v2 = insert pos visited := congrArg (fun x => x.2.1) hrest
            have hp : p2 = path ++ [pos] := congrArg (fun x => x.2.2) hrest
            show (false, v2.erase pos, p2.dropLast) = ((false : Bool), visited, path)
            rw [hv, hp, Finset.erase_insert (by simpa using hg.2)]
            have : (path ++ [pos]).dropLast = path := by simp
            rw [this]
    exact ⟨hP, restoreDirns_of endPos size (f + 1) hP⟩

theorem recursive_restore {endPos size pos : GridPt} {visited : Finset GridPt}
    {path : List GridPt} {fuel : Nat}
    (h : (recursive_ endPos size fuel pos visited path).1 = false) :
    recursive_ endPos size fuel pos visited path = (false, visited, path) :=
  (restore_aux endPos size fuel).1 pos visited path h

theorem recursiveDirns_restore {endPos size pos : GridPt} {dirns : List GridPt}
    {visited : Finset GridPt} {path : List GridPt} {fuel : Nat}
    (h : (recursiveDirns endPos size fuel pos dirns visited path).1 = false) :
    recursiveDirns endPos size fuel pos dirns visited path = (false, visited, path) :=
  (restore_aux endPos size fuel).2 pos dirns visited path h

/-! ### Soundness: a successful search returns a Hamiltonian path -/

theorem adjacentB_step {a d : GridPt} (hd : d ∈ searchDirns) :
    adjacentB a (a.1 + d.1, a.2 + d.2) = true := by
  simp only [adjacentB, List.any_eq_true, decide_eq_true_eq]
  exact ⟨d, hd, rfl⟩

theorem toFinset_concat {l : List GridPt} {a : GridPt} :
    (l ++ [a]).toFinset = insert a l.toFinset := by
  ext x; simp [or_comm]

/-- Entering a fresh valid cell preserves the state invariant. -/
theorem StateInv.push {size : GridPt} {visited : Finset GridPt} {path : List GridPt}
    {pos : GridPt} (h : StateInv size visited path) (hval : valid_pos pos size = true)
    (hmem : pos ∉ visited)
    (hlink : ∀ lp, path.getLast? = some lp → adjacentB lp pos = true) :
    StateInv size (insert pos visited) (path ++ [pos]) := by
  obtain ⟨hv, hnd, hvalid, hchain⟩ := h
  have hpin : pos ∉ path := fun hc => hmem (hv ▸ List.mem_toFinset.mpr hc)
  refine ⟨?_, ?_, ?_, ?_⟩
  · rw [toFinset_concat, hv]
  · simp [List.nodup_append, hnd, hpin]
  · intro c hc
    rcases List.mem_append.mp hc with hc | hc
    · exact hvalid c hc
    · simp at hc; subst hc; exact hval
  · rw [List.chain'_append]
    refine ⟨hchain, List.chain'_singleton _, ?_⟩
    intro x hx y hy
    simp at hy; subst hy
    exact hlink x hx

/-- Soundness of `recursive_`/`recursiveDirns`: on success the returned path
extends the given one to a full Hamiltonian path ending at `endPos`. -/
theorem sound_aux (endPos size : GridPt) (fuel : Nat) :
    (∀ pos visited path v' p',
      StateInv size visited path →
      (∀ lp, path.getLast? = some lp → adjacentB lp pos = true) →
      recursive_ endPos size fuel pos visited path = (true, v', p') →
      ∃ ext, ext ≠ [] ∧ ext.head? = some pos ∧ p' = path ++ ext ∧
        StateInv size v' p' ∧ p'.getLast? = some endPos ∧
        (p'.length : Int) = size.1 * size.2) ∧
    (∀ pos dirns visited path v' p',
      StateInv size visited path →
      dirns ⊆ searchDirns →
      path.getLast? = some pos →
      recursiveDirns endPos size fuel pos dirns visited path = (true, v', p') →
      ∃ ext, ext ≠ [] ∧ p' = path ++ ext ∧
        StateInv size v' p' ∧ p'.getLast? = some endPos ∧
        (p'.length : Int) = size.1 * size.2) := by
  induction fuel with
  | zero =>
    constructor
    · intro pos visited path v' p' _ _ h
      rw [recursive_] at h
      exact absurd (congrArg (fun x => x.1) h) (by simp)
    · intro pos dirns
      induction dirns with
      | nil =>
        intro visited path v' p' _ _ _ h
        rw [recursiveDirns] at h
        exact absurd (congrArg (fun x => x.1) h) (by simp)
      | cons dirn rest ih =>
        intro visited path v' p' hinv hsub hlast h
        rw [recursiveDirns] at h
        rw [recursive_] at h
        simp only at h
        exact ih visited path v' p' hinv (fun x hx => hsub (List.mem_cons_of_mem _ hx)) hlast h
  | succ f ihf =>
    have hP : ∀ pos visited path v' p',
        StateInv size visited path →
        (∀ lp, path.getLast? = some lp → adjacentB lp pos = true) →
        recursive_ endPos size (f + 1) pos visited path = (true, v', p') →
        ∃ ext, ext ≠ [] ∧ ext.head? = some pos ∧ p' = path ++ ext ∧
          StateInv size v' p' ∧ p'.getLast? = some endPos ∧
          (p'.length : Int) = size.1 * size.2 := by
      intro pos visited path v' p' hinv hlink h
      by_cases hg : ¬ valid_pos pos size ∨ pos ∈ visited
      · rw [recursive_bail hg] at h
        exact absurd (congrArg (fun x => x.1) h) (by simp)
      · push_neg at hg
        rw [recursive_] at h
        rw [if_neg (by simp [hg.1, hg.2])] at h
        by_cases hs : pos = endPos ∧ ((path ++ [pos]).length : Int) = size.1 * size.2
        · rw [if_pos hs] at h
          have hv' : v' = insert pos visited := (congrArg (fun x => x.2.1) h).symm
          have hp' : p' = path ++ [pos] := (congrArg (fun x => x.2.2) h).symm
          rw [hv', hp']
          refine ⟨[pos], by simp, by simp, rfl, hinv.push hg.1 hg.2 hlink, ?_, hs.2⟩
          rw [← hs.1]; simp
        · rw [if_neg hs] at h
          rcases hr : recursiveDirns endPos size f pos searchDirns (insert pos visited)
              (path ++ [pos]) with ⟨b, v2, p2⟩
          rw [hr] at h
          cases b with
          | false =>
            exact absurd (congrArg (fun x => x.1) h) (by simp)
          | true =>
            have hv' : v' = v2 := (congrArg (fun x => x.2.1) h).symm
            have hp' : p' = p2 := (congrArg (fun x => x.2.2) h).symm
            rw [hv', hp']
            obtain ⟨ext, hne, hpeq, hinv', hlast', hlen'⟩ :=
              ihf.2 pos searchDirns (insert pos visited) (path ++ [pos]) v2 p2
                (hinv.push hg.1 hg.2 hlink) (fun x hx => hx) (by simp) hr
            refine ⟨pos :: ext, by simp, by simp, ?_, hinv', hlast', hlen'⟩
            rw [hpeq, List.append_assoc]
            rfl
    have hQ : ∀ pos dirns visited path v' p',
        StateInv size visited path →
        dirns ⊆ searchDirns →
        path.getLast? = some pos →
        recursiveDirns endPos size (f + 1) pos dirns visited path = (true, v', p') →
        ∃ ext, ext ≠ [] ∧ p' = path ++ ext ∧
          StateInv size v' p' ∧ p'.getLast? = some endPos ∧
          (p'.length : Int) = size.1 * size.2 := by
      intro pos dirns
      induction dirns with
      | nil =>
        intro visited path v' p' _ _ _ h
        rw [recursiveDirns] at h
        exact absurd (congrArg (fun x => x.1) h) (by simp)
      | cons dirn rest ih =>
        intro visited path v' p' hinv hsub hlast h
        rw [recursiveDirns] at h
        rcases hr : recursive_ endPos size (f + 1) (pos.1 + dirn.1, pos.2 + dirn.2) visited path
          with ⟨b, v2, p2⟩
        rw [hr] at h
        cases b with
        | true =>
          have hv' : v' = v2 := (congrArg (fun x => x.2.1) h).symm
          have hp' : p' = p2 := (congrArg (fun x => x.2.2) h).symm
          rw [hv', hp']
          obtain ⟨ext, hne, _, hpeq, hinv', hlast', hlen'⟩ :=
            hP _ visited path v2 p2 hinv
              (fun lp hlp => by
                rw [hlast] at hlp
                cases hlp
                exact adjacentB_step (hsub (List.mem_cons_self _ _)))
              hr
          exact ⟨ext, hne, hpeq, hinv', hlast', hlen'⟩
        | false =>
          have hrest := recursive_restore (by rw [hr])
          rw [hr] at hrest
          have hv : v2 = visited := congrArg (fun x => x.2.1) hrest
          have hp : p2 = path := congrArg (fun x => x.2.2) hrest
          rw [hv, hp] at h
          exact ih visited path v' p' hinv (fun x hx => hsub (List.mem_cons_of_mem _ hx)) hlast h
    exact ⟨hP, hQ⟩

/-! ### Completeness: if some Hamiltonian completion exists, the search finds one -/

theorem adjacentB_elim {a b : GridPt} (h : adjacentB a b = true) :
    ∃ d ∈ searchDirns, b = (a.1 + d.1, a.2 + d.2) := by
  simpa only [adjacentB, List.any_eq_true, decide_eq_true_eq] using h

/-- If a duplicate-free in-bounds chain `q` starting at `pos`, ending at
`endPos`, disjoint from `visited` and completing the path to `rows * cols`
cells exists, then the (sufficiently fuelled) search from `pos` succeeds. -/
theorem complete_aux (endPos size : GridPt) (fuel : Nat) :
    (∀ pos visited path (q : List GridPt),
      visited ⊆ gridCells size →
      fuel + visited.card ≥ totalCells size + 1 →
      q.head? = some pos →
      q.getLast? = some endPos →
      q.Nodup →
      (∀ c ∈ q, valid_pos c size = true ∧ c ∉ visited) →
      List.Chain' (fun a b => adjacentB a b = true) q →
      path.length + q.length = totalCells size →
      (recursive_ endPos size fuel pos visited path).1 = true) ∧
    (∀ pos dirns visited path (q : List GridPt) next,
      visited ⊆ gridCells size →
      fuel + visited.card ≥ totalCells size + 1 →
      (∃ d ∈ dirns, next = (pos.1 + d.1, pos.2 + d.2)) →
      q.head? = some next →
      q.getLast? = some endPos →
      q.Nodup →
      (∀ c ∈ q, valid_pos c size = true ∧ c ∉ visited) →
      List.Chain' (fun a b => adjacentB a b = true) q →
      path.length + q.length = totalCells size →
      (recursiveDirns endPos size fuel pos dirns visited path).1 = true) := by
  induction fuel with
  | zero =>
    constructor
    · intro pos visited path q hsub hfuel hhead _ _ hq _ _
      have hposq : pos ∈ q := by
        cases q with
        | nil => simp at hhead
        | cons a t => simp at hhead; subst hhead; exact List.mem_cons_self _ _
      have hpos := (hq pos hposq).1
      have h1 : 0 < size.1 := by
        have := valid_pos_iff.mp hpos; omega
      have h2 : 0 < size.2 := by
        have := valid_pos_iff.mp hpos; omega
      have := card_le_totalCells hsub h1 h2
      omega
    · intro pos dirns visited path q next hsub hfuel _ hhead _ _ hq _ _
      have hnq : next ∈ q := by
        cases q with
        | nil => simp at hhead
        | cons a t => simp at hhead; subst hhead; exact List.mem_cons_self _ _
      have hn := (hq next hnq).1
      have h1 : 0 < size.1 := by
        have := valid_pos_iff.mp hn; omega
      have h2 : 0 < size.2 := by
        have := valid_pos_iff.mp hn; omega
      have := card_le_totalCells hsub h1 h2
      omega
  | succ f ihf =>
    have hP : ∀ pos visited path (q : List GridPt),
        visited ⊆ gridCells size →
        f + 1 + visited.card ≥ totalCells size + 1 →
        q.head? = some pos →
        q.getLast? = some endPos →
        q.Nodup →
        (∀ c ∈ q, valid_pos c size = true ∧ c ∉ visited) →
        List.Chain' (fun a b => adjacentB a b = true) q →
        path.length + q.length = totalCells size →
        (recursive_ endPos size (f + 1) pos visited path).1 = true := by
      intro pos visited path q hsub hfuel hhead hlast hnd hq hchain hlen
      cases q with
      | nil => simp at hhead
      | cons p0 q' =>
      simp only [List.head?_cons, Option.some.injEq] at hhead
      rw [hhead] at hlast hnd hq hchain hlen
      have hposv := hq pos (List.mem_cons_self _ _)
      have h1 : 0 < size.1 := by have := valid_pos_iff.mp hposv.1; omega
      have h2 : 0 < size.2 := by have := valid_pos_iff.mp hposv.1; omega
      rw [recursive_]
      rw [if_neg (by simp [hposv.1, hposv.2])]
      by_cases hs : pos = endPos ∧ ((path ++ [pos]).length : Int) = size.1 * size.2
      · rw [if_pos hs]
      · rw [if_neg hs]
        -- The completion must continue: `q'` is nonempty.
        cases q' with
        | nil =>
          exfalso
          apply hs
          simp only [List.getLast?_singleton, Option.some.injEq] at hlast
          refine ⟨hlast, ?_⟩
          have hlen1 : path.length + 1 = totalCells size := by simpa using hlen
          have hc : ((path ++ [pos]).length : Int) = ((path.length + 1 : Nat) : Int) := by
            simp
          rw [hc, hlen1, totalCells_cast h1 h2]
        | cons next q'' =>
          have hchain' := List.chain'_cons.mp hchain
          obtain ⟨d, hd, hnext⟩ := adjacentB_elim hchain'.1
          have hres := ihf.2 pos searchDirns (insert pos visited) (path ++ [pos])
            (next :: q'') next
            (Finset.insert_subset (mem_gridCells.mpr hposv.1) hsub)
            (by
              rw [Finset.card_insert_of_not_mem hposv.2]
              omega)
            ⟨d, hd, hnext⟩
            (by simp)
            (by simpa using hlast)
            hnd.of_cons
            (by
              intro c hc
              refine ⟨(hq c (List.mem_cons_of_mem _ hc)).1, ?_⟩
              rw [Finset.mem_insert]
              push_neg
              exact ⟨fun hcp => (List.nodup_cons.mp hnd).1 (hcp ▸ hc),
                (hq c (List.mem_cons_of_mem _ hc)).2⟩)
            hchain'.2
            (by
              simp only [List.length_append, List.length_cons, List.length_singleton,
                List.length_nil] at hlen ⊢
              omega)
          rcases hr : recursiveDirns endPos size f pos searchDirns (insert pos visited)
              (path ++ [pos]) with ⟨b, v2, p2⟩
          rw [hr] at hres
          subst hres
          rfl
    have hQ : ∀ pos dirns visited path (q : List GridPt) next,
        visited ⊆ gridCells size →
        f + 1 + visited.card ≥ totalCells size + 1 →
        (∃ d ∈ dirns, next = (pos.1 + d.1, pos.2 + d.2)) →
        q.head? = some next →
        q.getLast? = some endPos →
        q.Nodup →
        (∀ c ∈ q, valid_pos c size = true ∧ c ∉ visited) →
        List.Chain' (fun a b => adjacentB a b = true) q →
        path.length + q.length = totalCells size →
        (recursiveDirns endPos size (f + 1) pos dirns visited path).1 = true := by
      intro pos dirns
      induction dirns with
      | nil =>
        intro visited path q next _ _ hwit _ _ _ _ _ _
        obtain ⟨d, hd, _⟩ := hwit
        simp at hd
      | cons dirn rest ih =>
        intro visited path q next hsub hfuel hwit hhead hlast hnd hq hchain hlen
        rw [recursiveDirns]
        rcases hr : recursive_ endPos size (f + 1) (pos.1 + dirn.1, pos.2 + dirn.2) visited path
          with ⟨b, v2, p2⟩
        cases b with
        | true => rfl
        | false =>
          have hrest := recursive_restore (by rw [hr])
          rw [hr] at hrest
          have hv : v2 = visited := congrArg (fun x => x.2.1) hrest
          have hp : p2 = path := congrArg (fun x => x.2.2) hrest
          simp only
          rw [hv, hp]
          obtain ⟨d, hd, hnext⟩ := hwit
          rcases List.mem_cons.mp hd with hdd | hdr
          · -- The witness direction is the one just tried: contradiction with failure.
            exfalso
            have hgoal : (recursive_ endPos size (f + 1) next visited path).1 = true :=
              hP next visited path q hsub hfuel hhead hlast hnd hq hchain hlen
            rw [hdd] at hnext
            rw [hnext, hr] at hgoal
            simp at hgoal
          · exact ih visited path q next hsub hfuel ⟨d, hdr, hnext⟩ hhead hlast hnd hq
              hchain hlen
    exact ⟨hP, hQ⟩

/-! ### Fuel irrelevance: any fuel beyond the depth bound gives the same run -/

/-- The search result does not depend on the fuel, once the fuel exceeds the
number of unvisited cells: the recursion depth is bounded by the grid size. -/
theorem fuelIrrel_aux (endPos size : GridPt) (fuel : Nat) :
    (∀ g pos visited path,
      visited ⊆ gridCells size → 0 < size.1 → 0 < size.2 →
      fuel + visited.card ≥ totalCells size + 1 →
      g + visited.card ≥ totalCells size + 1 →
      recursive_ endPos size fuel pos visited path =
        recursive_ endPos size g pos visited path) ∧
    (∀ g pos dirns visited path,
      visited ⊆ gridCells size → 0 < size.1 → 0 < size.2 →
      fuel + visited.card ≥ totalCells size + 1 →
      g + visited.card ≥ totalCells size + 1 →
      recursiveDirns endPos size fuel pos dirns visited path =
        recursiveDirns endPos size g pos dirns visited path) := by
  induction fuel with
  | zero =>
    constructor
    · intro g pos visited path hsub h1 h2 hf _
      have := card_le_totalCells hsub h1 h2
      omega
    · intro g pos dirns visited path hsub h1 h2 hf _
      have := card_le_totalCells hsub h1 h2
      omega
  | succ f ihf =>
    have hP : ∀ g pos visited path,
        visited ⊆ gridCells size → 0 < size.1 → 0 < size.2 →
        f + 1 + visited.card ≥ totalCells size + 1 →
        g + visited.card ≥ totalCells size + 1 →
        recursive_ endPos size (f + 1) pos visited path =
          recursive_ endPos size g pos visited path := by
      intro g pos visited path hsub h1 h2 hf hg
      cases g with
      | zero =>
        have := card_le_totalCells hsub h1 h2
        omega
      | succ g' =>
        by_cases hguard : ¬ valid_pos pos size ∨ pos ∈ visited
        · rw [recursive_bail hguard, recursive_bail hguard]
        · push_neg at hguard
          by_cases hs : pos = endPos ∧ ((path ++ [pos]).length : Int) = size.1 * size.2
          · rw [recursive_found f hguard.1 hguard.2 hs,
              recursive_found g' hguard.1 hguard.2 hs]
          · rw [recursive_step f hguard.1 hguard.2 hs,
              recursive_step g' hguard.1 hguard.2 hs]
            have hd := ihf.2 g' pos searchDirns (insert pos visited) (path ++ [pos])
              (Finset.insert_subset (mem_gridCells.mpr hguard.1) hsub) h1 h2
              (by rw [Finset.card_insert_of_not_mem hguard.2]; omega)
              (by rw [Finset.card_insert_of_not_mem hguard.2]; omega)
            rw [hd]
    have hQ : ∀ g pos dirns visited path,
        visited ⊆ gridCells size → 0 < size.1 → 0 < size.2 →
        f + 1 + visited.card ≥ totalCells size + 1 →
        g + visited.card ≥ totalCells size + 1 →
        recursiveDirns endPos size (f + 1) pos dirns visited path =
          recursiveDirns endPos size g pos dirns visited path := by
      intro g pos dirns
      induction dirns with
      | nil =>
        intro visited path _ _ _ _ _
        rw [recursiveDirns, recursiveDirns]
      | cons dirn rest ih =>
        intro visited path hsub h1 h2 hf hg
        rw [recursiveDirns, recursiveDirns]
        have hrec := hP g (pos.1 + dirn.1, pos.2 + dirn.2) visited path hsub h1 h2 hf hg
        rw [← hrec]
        rcases hr : recursive_ endPos size (f + 1) (pos.1 + dirn.1, pos.2 + dirn.2) visited path
          with ⟨b, v2, p2⟩
        cases b with
        | true => rfl
        | false =>
          have hrest := recursive_restore (by rw [hr])
          rw [hr] at hrest
          have hv : v2 = visited := congrArg (fun x => x.2.1) hrest
          have hp : p2 = path := congrArg (fun x => x.2.2) hrest
          simp only
          rw [hv, hp]
          exact ih visited path hsub h1 h2 hf hg
    exact ⟨hP, hQ⟩

/-! ### Step lemmas for the non-recursive machine -/

theorem nrLoop_inl {endPos size : GridPt} {rpath rpath' : List GridPt} {rdirn rdirn' : List Nat}
    {visited visited' : Finset GridPt} (f : Nat)
    (h : nrStep endPos size rpath rdirn visited = .inl (rpath', rdirn', visited')) :
    nrLoop endPos size (f + 1) rpath rdirn visited =
      nrLoop endPos size f rpath' rdirn' visited' := by
  rw [nrLoop, h]

theorem nrLoop_inr {endPos size : GridPt} {rpath : List GridPt} {rdirn : List Nat}
    {visited : Finset GridPt} {r : List GridPt} (f : Nat)
    (h : nrStep endPos size rpath rdirn visited = .inr r) :
    nrLoop endPos size (f + 1) rpath rdirn visited = some r := by
  rw [nrLoop, h]

theorem nrLoop_fuel_eq {endPos size : GridPt} {rpath : List GridPt} {rdirn : List Nat}
    {visited : Finset GridPt} {f1 f2 : Nat} (h : f1 = f2) :
    nrLoop endPos size f1 rpath rdirn visited = nrLoop endPos size f2 rpath rdirn visited := by
  rw [h]

theorem nrStep_found {endPos size pos : GridPt} {rp : List GridPt} {d : Nat} {rd : List Nat}
    {v : Finset GridPt}
    (hs : pos = endPos ∧ ((pos :: rp).length : Int) = size.1 * size.2) :
    nrStep endPos size (pos :: rp) (d :: rd) v = .inr (pos :: rp).reverse := by
  simp only [nrStep]
  rw [if_pos hs]

theorem nrStep_pop_nil {endPos size pos : GridPt} {d : Nat} {rd : List Nat} {v : Finset GridPt}
    (hs : ¬(pos = endPos ∧ ((List.length [pos] : Int) = size.1 * size.2)))
    (hd : searchDirns.length ≤ d) :
    nrStep endPos size [pos] (d :: rd) v = .inr [] := by
  simp only [nrStep]
  rw [if_neg hs, if_pos hd]

theorem nrStep_pop_cons {endPos size pos p2 : GridPt} {rp2 : List GridPt} {d d2 : Nat}
    {rd2 : List Nat} {v : Finset GridPt}
    (hs : ¬(pos = endPos ∧ ((pos :: p2 :: rp2).length : Int) = size.1 * size.2))
    (hd : searchDirns.length ≤ d) :
    nrStep endPos size (pos :: p2 :: rp2) (d :: d2 :: rd2) v =
      .inl (p2 :: rp2, (d2 + 1) :: rd2, v.erase pos) := by
  simp only [nrStep]
  rw [if_neg hs, if_pos hd]

theorem nrStep_skip {endPos size pos dirn : GridPt} {rp : List GridPt} {d : Nat}
    {rd : List Nat} {v : Finset GridPt}
    (hs : ¬(pos = endPos ∧ ((pos :: rp).length : Int) = size.1 * size.2))
    (hd : ¬ searchDirns.length ≤ d)
    (hdirn : searchDirns.getD d (0, 0) = dirn)
    (hbail : ¬ valid_pos (pos.1 + dirn.1, pos.2 + dirn.2) size ∨
      (pos.1 + dirn.1, pos.2 + dirn.2) ∈ v) :
    nrStep endPos size (pos :: rp) (d :: rd) v = .inl (pos :: rp, (d + 1) :: rd, v) := by
  simp only [nrStep]
  rw [if_neg hs, if_neg hd, hdirn]
  rw [if_pos hbail]

theorem nrStep_push {endPos size pos dirn : GridPt} {rp : List GridPt} {d : Nat}
    {rd : List Nat} {v : Finset GridPt}
    (hs : ¬(pos = endPos ∧ ((pos :: rp).length : Int) = size.1 * size.2))
    (hd : ¬ searchDirns.length ≤ d)
    (hdirn : searchDirns.getD d (0, 0) = dirn)
    (hok : ¬(¬ valid_pos (pos.1 + dirn.1, pos.2 + dirn.2) size ∨
      (pos.1 + dirn.1, pos.2 + dirn.2) ∈ v)) :
    nrStep endPos size (pos :: rp) (d :: rd) v =
      .inl ((pos.1 + dirn.1, pos.2 + dirn.2) :: pos :: rp, 0 :: d :: rd,
        insert (pos.1 + dirn.1, pos.2 + dirn.2) v) := by
  simp only [nrStep]
  rw [if_neg hs, if_neg hd, hdirn]
  rw [if_neg hok]

/-- Unfolding `recursiveSteps` when the search terminates successfully here. -/
theorem recursiveSteps_found {endPos size pos : GridPt} {visited : Finset GridPt}
    {path : List GridPt} (f : Nat) (hg : valid_pos pos size = true) (hm : pos ∉ visited)
    (hs : pos = endPos ∧ ((path ++ [pos]).length : Int) = size.1 * size.2) :
    recursiveSteps endPos size (f + 1) pos visited path = 1 := by
  rw [recursiveSteps]
  rw [if_neg (by simp [hg, hm])]
  rw [if_pos hs]

/-- Unfolding `recursiveSteps` when the search continues into the direction loop. -/
theorem recursiveSteps_step {endPos size pos : GridPt} {visited : Finset GridPt}
    {path : List GridPt} (f : Nat) (hg : valid_pos pos size = true) (hm : pos ∉ visited)
    (hs : ¬(pos = endPos ∧ ((path ++ [pos]).length : Int) = size.1 * size.2)) :
    recursiveSteps endPos size (f + 1) pos visited path =
      recursiveDirnsSteps endPos size f pos searchDirns (insert pos visited)
        (path ++ [pos]) := by
  rw [recursiveSteps]
  rw [if_neg (by simp [hg, hm])]
  rw [if_neg hs]

/-! ### Simulation: the non-recursive machine computes the recursive search -/

/-- The central simulation invariant.  First component: from a machine state
that has just pushed `pos` (direction index `0`, `pos` freshly marked), the
loop spends exactly `recursiveSteps` iterations simulating
`recursive_ ... pos v0 rp.reverse` and then either returns its found path or
pops `pos` and resumes the parent frame.  Second component: the same for a
frame mid-way through its direction loop at index `d`, simulating
`recursiveDirns` on the remaining directions. -/
theorem sim_aux (endPos size : GridPt) (fuel : Nat) :
    (∀ (pos : GridPt) (rp : List GridPt) (rd : List Nat) (v0 : Finset GridPt),
      (pos :: rp).Nodup →
      (∀ c ∈ pos :: rp, valid_pos c size = true) →
      v0 = rp.toFinset →
      rp.length = rd.length →
      fuel + v0.card ≥ totalCells size + 1 →
      (((recursive_ endPos size fuel pos v0 rp.reverse).1 = true →
          ∀ F, nrLoop endPos size
              (recursiveSteps endPos size fuel pos v0 rp.reverse + F)
              (pos :: rp) (0 :: rd) (insert pos v0) =
            some (recursive_ endPos size fuel pos v0 rp.reverse).2.2) ∧
        ((recursive_ endPos size fuel pos v0 rp.reverse).1 = false →
          ∀ F, nrLoop endPos size
              (recursiveSteps endPos size fuel pos v0 rp.reverse + F)
              (pos :: rp) (0 :: rd) (insert pos v0) =
            match rp, rd with
            | p2 :: rp2, d2 :: rd2 =>
              nrLoop endPos size F (p2 :: rp2) ((d2 + 1) :: rd2) v0
            | _, _ => some []))) ∧
    (∀ (pos : GridPt) (rp : List GridPt) (rd : List Nat) (d : Nat) (l : List GridPt)
        (v1 : Finset GridPt),
      searchDirns.drop d = l →
      (pos :: rp).Nodup →
      (∀ c ∈ pos :: rp, valid_pos c size = true) →
      v1 = (pos :: rp).toFinset →
      rp.length = rd.length →
      fuel + v1.card ≥ totalCells size + 1 →
      ¬(pos = endPos ∧ ((pos :: rp).length : Int) = size.1 * size.2) →
      (((recursiveDirns endPos size fuel pos l v1 (pos :: rp).reverse).1 = true →
          ∀ F, nrLoop endPos size
              (recursiveDirnsSteps endPos size fuel pos l v1 (pos :: rp).reverse + F)
              (pos :: rp) (d :: rd) v1 =
            some (recursiveDirns endPos size fuel pos l v1 (pos :: rp).reverse).2.2) ∧
        ((recursiveDirns endPos size fuel pos l v1 (pos :: rp).reverse).1 = false →
          ∀ F, nrLoop endPos size
              (recursiveDirnsSteps endPos size fuel pos l v1 (pos :: rp).reverse + F)
              (pos :: rp) (d :: rd) v1 =
            match rp, rd with
            | p2 :: rp2, d2 :: rd2 =>
              nrLoop endPos size F (p2 :: rp2) ((d2 + 1) :: rd2) (v1.erase pos)
            | _, _ => some []))) := by
  induction fuel with
  | zero =>
    constructor
    · intro pos rp rd v0 hnd hvalid hv0 hlen hfuel
      exfalso
      have hpos := hvalid pos (List.mem_cons_self _ _)
      have h1 : 0 < size.1 := by have := valid_pos_iff.mp hpos; omega
      have h2 : 0 < size.2 := by have := valid_pos_iff.mp hpos; omega
      have hsub : v0 ⊆ gridCells size := by
        rw [hv0]
        exact toFinset_subset_gridCells fun c hc => hvalid c (List.mem_cons_of_mem _ hc)
      have := card_le_totalCells hsub h1 h2
      omega
    · intro pos rp rd d l v1 hdrop hnd hvalid hv1 hlen hfuel hns
      exfalso
      have hpos := hvalid pos (List.mem_cons_self _ _)
      have h1 : 0 < size.1 := by have := valid_pos_iff.mp hpos; omega
      have h2 : 0 < size.2 := by have := valid_pos_iff.mp hpos; omega
      have hsub : v1 ⊆ gridCells size := by
        rw [hv1]
        exact toFinset_subset_gridCells hvalid
      have := card_le_totalCells hsub h1 h2
      omega
  | succ f ihf =>
    have hP : ∀ (pos : GridPt) (rp : List GridPt) (rd : List Nat) (v0 : Finset GridPt),
        (pos :: rp).Nodup →
        (∀ c ∈ pos :: rp, valid_pos c size = true) →
        v0 = rp.toFinset →
        rp.length = rd.length →
        f + 1 + v0.card ≥ totalCells size + 1 →
        (((recursive_ endPos size (f + 1) pos v0 rp.reverse).1 = true →
            ∀ F, nrLoop endPos size
                (recursiveSteps endPos size (f + 1) pos v0 rp.reverse + F)
                (pos :: rp) (0 :: rd) (insert pos v0) =
              some (recursive_ endPos size (f + 1) pos v0 rp.reverse).2.2) ∧
          ((recursive_ endPos size (f + 1) pos v0 rp.reverse).1 = false →
            ∀ F, nrLoop endPos size
                (recursiveSteps endPos size (f + 1) pos v0 rp.reverse + F)
                (pos :: rp) (0 :: rd) (insert pos v0) =
              match rp, rd with
              | p2 :: rp2, d2 :: rd2 =>
                nrLoop endPos size F (p2 :: rp2) ((d2 + 1) :: rd2) v0
              | _, _ => some [])) := by
      intro pos rp rd v0 hnd hvalid hv0 hlen hfuel
      have hpos := hvalid pos (List.mem_cons_self _ _)
      have hm : pos ∉ v0 := by
        rw [hv0, List.mem_toFinset]
        exact (List.nodup_cons.mp hnd).1
      have hrev : (pos :: rp).reverse = rp.reverse ++ [pos] := by simp
      have hlencast : ((rp.reverse ++ [pos]).length : Int) = ((pos :: rp).length : Int) := by
        simp
      by_cases hs : pos = endPos ∧ ((pos :: rp).length : Int) = size.1 * size.2
      · -- The machine and the recursion both stop here with the full path.
        have hs' : pos = endPos ∧ ((rp.reverse ++ [pos]).length : Int) = size.1 * size.2 :=
          ⟨hs.1, by rw [hlencast]; exact hs.2⟩
        have hres := recursive_found f hpos hm hs'
        have hsteps := recursiveSteps_found f hpos hm hs'
        constructor
        · intro _ F
          rw [hsteps, hres, Nat.add_comm 1 F]
          rw [nrLoop_inr F (nrStep_found hs)]
          rw [hrev]
        · intro hfalse
          rw [hres] at hfalse
          simp at hfalse
      · -- The machine success check fails exactly like the recursion's.
        have hs' : ¬(pos = endPos ∧
            ((rp.reverse ++ [pos]).length : Int) = size.1 * size.2) := by
          intro h
          exact hs ⟨h.1, by rw [← hlencast]; exact h.2⟩
        have hres := recursive_step f hpos hm hs'
        have hsteps := recursiveSteps_step f hpos hm hs'
        have hQf := ihf.2 pos rp rd 0 searchDirns (insert pos v0)
          rfl hnd hvalid (by rw [List.toFinset_cons, hv0]) hlen
          (by rw [Finset.card_insert_of_not_mem hm]; omega) hs
        rw [hrev] at hQf
        rcases hr : recursiveDirns endPos size f pos searchDirns (insert pos v0)
            (rp.reverse ++ [pos]) with ⟨b, v2, p2⟩
        rw [hr] at hQf
        cases b with
        | true =>
          constructor
          · intro _ F
            rw [hsteps, hres, hr]
            exact hQf.1 rfl F
          · intro hfalse
            rw [hres, hr] at hfalse
            simp at hfalse
        | false =>
          constructor
          · intro htrue
            rw [hres, hr] at htrue
            simp at htrue
          · intro _ F
            rw [hsteps]
            have hcont := hQf.2 rfl F
            rw [Finset.erase_insert hm] at hcont
            exact hcont
    have hQ : ∀ (pos : GridPt) (rp : List GridPt) (rd : List Nat) (d : Nat)
        (l : List GridPt) (v1 : Finset GridPt),
        searchDirns.drop d = l →
        (pos :: rp).Nodup →
        (∀ c ∈ pos :: rp, valid_pos c size = true) →
        v1 = (pos :: rp).toFinset →
        rp.length = rd.length →
        f + 1 + v1.card ≥ totalCells size + 1 →
        ¬(pos = endPos ∧ ((pos :: rp).length : Int) = size.1 * size.2) →
        (((recursiveDirns endPos size (f + 1) pos l v1 (pos :: rp).reverse).1 = true →
            ∀ F, nrLoop endPos size
                (recursiveDirnsSteps endPos size (f + 1) pos l v1 (pos :: rp).reverse + F)
                (pos :: rp) (d :: rd) v1 =
              some (recursiveDirns endPos size (f + 1) pos l v1 (pos :: rp).reverse).2.2) ∧
          ((recursiveDirns endPos size (f + 1) pos l v1 (pos :: rp).reverse).1 = false →
            ∀ F, nrLoop endPos size
                (recursiveDirnsSteps endPos size (f + 1) pos l v1 (pos :: rp).reverse + F)
                (pos :: rp) (d :: rd) v1 =
              match rp, rd with
              | p2 :: rp2, d2 :: rd2 =>
                nrLoop endPos size F (p2 :: rp2) ((d2 + 1) :: rd2) (v1.erase pos)
              | _, _ => some [])) := by
      intro pos rp rd d l
      induction l generalizing d with
      | nil =>
        intro v1 hdrop hnd hvalid hv1 hlen hfuel hns
        have hd4 : searchDirns.length ≤ d := List.drop_eq_nil_iff.mp hdrop
        have hsteps : recursiveDirnsSteps endPos size (f + 1) pos [] v1
            (pos :: rp).reverse = 1 := by
          rw [recursiveDirnsSteps]
        constructor
        · intro htrue
          rw [recursiveDirns] at htrue
          simp at htrue
        · intro _ F
          rw [hsteps, Nat.add_comm 1 F]
          cases rp with
          | nil =>
            cases rd with
            | nil =>
              rw [nrLoop_inr F (nrStep_pop_nil hns hd4)]
            | cons d2 rd2 => simp at hlen
          | cons p2 rp2 =>
            cases rd with
            | nil => simp at hlen
            | cons d2 rd2 =>
              rw [nrLoop_inl F (nrStep_pop_cons hns hd4)]
      | cons dirn rest ih =>
        intro v1 hdrop hnd hvalid hv1 hlen hfuel hns
        have hd4 : ¬ searchDirns.length ≤ d := by
          intro hle
          rw [List.drop_eq_nil_iff.mpr hle] at hdrop
          simp at hdrop
        have hdirn : searchDirns.getD d (0, 0) = dirn := getD_of_drop _ d _ _ _ hdrop
        have hrestdrop : searchDirns.drop (d + 1) = rest := by
          rw [drop_succ_eq_tail_drop, hdrop]
          rfl
        by_cases hbail : ¬ valid_pos (pos.1 + dirn.1, pos.2 + dirn.2) size ∨
            (pos.1 + dirn.1, pos.2 + dirn.2) ∈ v1
        · -- Invalid or visited: the machine advances the direction index,
          -- the recursion's inner call bails.
          have hrec : recursive_ endPos size (f + 1) (pos.1 + dirn.1, pos.2 + dirn.2) v1
              (pos :: rp).reverse = (false, v1, (pos :: rp).reverse) :=
            recursive_bail hbail (f + 1)
          have hih := ih (d + 1) v1 hrestdrop hnd hvalid hv1 hlen hfuel hns
          have hunf : recursiveDirns endPos size (f + 1) pos (dirn :: rest) v1
              (pos :: rp).reverse =
              recursiveDirns endPos size (f + 1) pos rest v1 (pos :: rp).reverse := by
            rw [recursiveDirns, hrec]
          have hst : recursiveDirnsSteps endPos size (f + 1) pos (dirn :: rest) v1
              (pos :: rp).reverse =
              recursiveDirnsSteps endPos size (f + 1) pos rest v1 (pos :: rp).reverse + 1 := by
            rw [recursiveDirnsSteps]
            rw [if_pos hbail]
          constructor
          · intro htrue F
            rw [hunf] at htrue
            rw [hunf, hst, Nat.add_right_comm _ 1 F]
            rw [nrLoop_inl _ (nrStep_skip hns hd4 hdirn hbail)]
            exact hih.1 htrue F
          · intro hfalse F
            rw [hunf] at hfalse
            rw [hst, Nat.add_right_comm _ 1 F]
            rw [nrLoop_inl _ (nrStep_skip hns hd4 hdirn hbail)]
            exact hih.2 hfalse F
        · -- Valid fresh cell: the machine pushes a frame, the recursion
          -- descends into `recursive_` at the neighbour.
          have hok := hbail
          push_neg at hok
          have hnmem : (pos.1 + dirn.1, pos.2 + dirn.2) ∉ pos :: rp := by
            intro hmem
            exact hok.2 (hv1 ▸ List.mem_toFinset.mpr hmem)
          have hPi := hP (pos.1 + dirn.1, pos.2 + dirn.2) (pos :: rp) (d :: rd) v1
            (List.nodup_cons.mpr ⟨hnmem, hnd⟩)
            (by
              intro c hc
              rcases List.mem_cons.mp hc with hc | hc
              · subst hc; exact hok.1
              · exact hvalid c hc)
            hv1
            (by simp [hlen])
            hfuel
          rcases hres : recursive_ endPos size (f + 1) (pos.1 + dirn.1, pos.2 + dirn.2) v1
              ((pos :: rp).reverse) with ⟨b, v2, p2⟩
          rw [hres] at hPi
          have hunf : recursiveDirns endPos size (f + 1) pos (dirn :: rest) v1
              (pos :: rp).reverse =
              match (b, v2, p2) with
              | (true, v2, p2) => (true, v2, p2)
              | (false, v2, p2) =>
                recursiveDirns endPos size (f + 1) pos rest v2 p2 := by
            rw [recursiveDirns, hres]
          cases b with
          | true =>
            have hst : recursiveDirnsSteps endPos size (f + 1) pos (dirn :: rest) v1
                (pos :: rp).reverse =
                recursiveSteps endPos size (f + 1) (pos.1 + dirn.1, pos.2 + dirn.2) v1
                  (pos :: rp).reverse + 1 := by
              rw [recursiveDirnsSteps]
              rw [if_neg hbail, hres]
            constructor
            · intro _ F
              rw [hunf, hst, Nat.add_right_comm _ 1 F]
              rw [nrLoop_inl _ (nrStep_push hns hd4 hdirn hbail)]
              exact hPi.1 rfl F
            · intro hfalse
              rw [hunf] at hfalse
              simp at hfalse
          | false =>
            have hrest2 := recursive_restore (by rw [hres])
            rw [hres] at hrest2
            have hv2 : v2 = v1 := congrArg (fun x => x.2.1) hrest2
            have hp2 : p2 = (pos :: rp).reverse := congrArg (fun x => x.2.2) hrest2
            have hst : recursiveDirnsSteps endPos size (f + 1) pos (dirn :: rest) v1
                (pos :: rp).reverse =
                recursiveSteps endPos size (f + 1) (pos.1 + dirn.1, pos.2 + dirn.2) v1
                    (pos :: rp).reverse +
                  recursiveDirnsSteps endPos size (f + 1) pos rest v1
                    (pos :: rp).reverse + 1 := by
              rw [recursiveDirnsSteps]
              rw [if_neg hbail, hres]
              rw [hv2, hp2]
            have hih := ih (d + 1) v1 hrestdrop hnd hvalid hv1 hlen hfuel hns
            have hunf2 : recursiveDirns endPos size (f + 1) pos (dirn :: rest) v1
                (pos :: rp).reverse =
                recursiveDirns endPos size (f + 1) pos rest v1 (pos :: rp).reverse := by
              rw [hunf]
              simp only
              rw [hv2, hp2]
            constructor
            · intro htrue F
              rw [hunf2] at htrue
              rw [hunf2, hst, Nat.add_right_comm _ 1 F, Nat.add_assoc _ _ F]
              rw [nrLoop_inl _ (nrStep_push hns hd4 hdirn hbail)]
              have hpop := hPi.2 rfl
                (recursiveDirnsSteps endPos size (f + 1) pos rest v1 (pos :: rp).reverse + F)
              rw [hpop]
              exact hih.1 htrue F
            · intro hfalse F
              rw [hunf2] at hfalse
              rw [hst, Nat.add_right_comm _ 1 F, Nat.add_assoc _ _ F]
              rw [nrLoop_inl _ (nrStep_push hns hd4 hdirn hbail)]
              have hpop := hPi.2 rfl
                (recursiveDirnsSteps endPos size (f + 1) pos rest v1 (pos :: rp).reverse + F)
              rw [hpop]
              exact hih.2 hfalse F
    exact ⟨hP, hQ⟩

/-! ### Top-level consequences for `solve_snake` -/

/-- The non-recursive strategy computes exactly what the recursive strategy
computes (path on success, `[]` on failure), and in particular terminates. -/
theorem nonRecursive_eq_recursive {startPos endPos size : GridPt}
    (hstart : valid_pos startPos size = true) :
    nonRecursive_ startPos endPos size =
      some (if (recursive_ endPos size (totalCells size + 1) startPos ∅ []).1
        then (recursive_ endPos size (totalCells size + 1) startPos ∅ []).2.2
        else []) := by
  have hsim := (sim_aux endPos size (totalCells size + 1)).1 startPos [] [] ∅
    (by simp)
    (by
      intro c hc
      simp only [List.mem_singleton] at hc
      subst hc
      exact hstart)
    (by simp)
    rfl
    (by omega)
  have hrev : ([] : List GridPt).reverse = [] := rfl
  rw [hrev] at hsim
  rcases hb : (recursive_ endPos size (totalCells size + 1) startPos ∅ []).1 with _ | _
  · have h := hsim.2 hb 1
    rw [nonRecursive_, h]
    simp
  · have h := hsim.1 hb 1
    rw [nonRecursive_, h]
    simp

/-- Unfolding `solve_snake` for the recursive strategy on valid inputs. -/
theorem solve_snake_rec_eq {startPos endPos size : GridPt}
    (hs : valid_pos startPos size = true) (he : valid_pos endPos size = true)
    (hne : startPos ≠ endPos) :
    solve_snake startPos endPos size "recursive" =
      .ok (if (recursive_ endPos size (totalCells size + 1) startPos ∅ []).1
        then (recursive_ endPos size (totalCells size + 1) startPos ∅ []).2.2
        else []) := by
  rw [solve_snake]
  rw [if_neg (by simp [hs]), if_neg (by simp [he]), if_neg hne, if_pos rfl]

/-- Unfolding `solve_snake` for the non-recursive strategy on valid inputs:
by the simulation, it returns the same as the recursive strategy. -/
theorem solve_snake_nonrec_eq {startPos endPos size : GridPt}
    (hs : valid_pos startPos size = true) (he : valid_pos endPos size = true)
    (hne : startPos ≠ endPos) :
    solve_snake startPos endPos size "non-recursive" =
      .ok (if (recursive_ endPos size (totalCells size + 1) startPos ∅ []).1
        then (recursive_ endPos size (totalCells size + 1) startPos ∅ []).2.2
        else []) := by
  rw [solve_snake]
  rw [if_neg (by simp [hs]), if_neg (by simp [he]), if_neg hne,
    if_neg (by decide), if_pos rfl]
  rw [nonRecursive_eq_recursive hs]

/-- `List.count` over grid points agrees between the `Prod` `BEq` instance and
the one Mathlib's counting lemmas use. -/
theorem count_prod_eq (a : GridPt) : ∀ (l : List GridPt),
    l.count a = @List.count GridPt instBEqOfDecidableEq a l := by
  intro l
  induction l with
  | nil => rfl
  | cons b t ih =>
    rw [List.count_cons, @List.count_cons GridPt instBEqOfDecidableEq, ih]
    by_cases h : b = a
    · subst h
      simp [instBEqOfDecidableEq]
    · simp [h, instBEqOfDecidableEq]

/-- Success of the fully-fuelled recursive search yields a Hamiltonian path. -/
theorem ham_of_success {startPos endPos size : GridPt}
    (hstart : valid_pos startPos size = true)
    (hb : (recursive_ endPos size (totalCells size + 1) startPos ∅ []).1 = true) :
    isHamPath startPos endPos size
      (recursive_ endPos size (totalCells size + 1) startPos ∅ []).2.2 := by
  have h1 : 0 < size.1 := by have := valid_pos_iff.mp hstart; omega
  have h2 : 0 < size.2 := by have := valid_pos_iff.mp hstart; omega
  rcases hres : recursive_ endPos size (totalCells size + 1) startPos ∅ [] with ⟨b, v', p'⟩
  rw [hres] at hb
  simp only at hb
  subst hb
  obtain ⟨ext, hne, hhead, hpeq, hinv, hlast, hlen⟩ :=
    (sound_aux endPos size (totalCells size + 1)).1 startPos ∅ [] v' p'
      ⟨by simp, List.nodup_nil, by simp, List.chain'_nil⟩
      (by intro lp hlp; simp at hlp)
      hres
  simp only [List.nil_append] at hpeq
  have hheadp : p'.head? = some startPos := by rw [hpeq]; exact hhead
  obtain ⟨hv', hnd, hvalid, hchain⟩ := hinv
  have hlennat : p'.length = totalCells size := by
    have hc := totalCells_cast h1 h2
    exact_mod_cast hlen.trans hc.symm
  have hsub : p'.toFinset ⊆ gridCells size := toFinset_subset_gridCells hvalid
  have hcards : p'.toFinset.card = p'.length := List.toFinset_card_of_nodup hnd
  have hedq : p'.toFinset = gridCells size := by
    apply Finset.eq_of_subset_of_card_le hsub
    rw [hcards, hlennat, card_gridCells h1 h2]
  show isHamPath startPos endPos size p'
  refine ⟨hheadp, hlast, hlen, ?_, hvalid, hchain⟩
  intro c hc
  have hcmem : c ∈ p' := by
    rw [← List.mem_toFinset, hedq, mem_gridCells]
    exact hc
  rw [count_prod_eq]
  exact List.count_eq_one_of_mem hnd hcmem

/-- If a Hamiltonian path exists, the fully-fuelled recursive search succeeds. -/
theorem success_of_ham {startPos endPos size : GridPt} {q : List GridPt}
    (hham : isHamPath startPos endPos size q) :
    (recursive_ endPos size (totalCells size + 1) startPos ∅ []).1 = true := by
  obtain ⟨hhead, hlast, hlen, hcount, hvalid, hchain⟩ := hham
  have hstartq : startPos ∈ q := by
    cases q with
    | nil => simp at hhead
    | cons a t =>
      simp only [List.head?_cons, Option.some.injEq] at hhead
      rw [hhead]
      exact List.mem_cons_self _ _
  have hstart := hvalid startPos hstartq
  have h1 : 0 < size.1 := by have := valid_pos_iff.mp hstart; omega
  have h2 : 0 < size.2 := by have := valid_pos_iff.mp hstart; omega
  have hnd : q.Nodup := by
    rw [List.nodup_iff_count_le_one]
    intro a
    rw [← count_prod_eq]
    by_cases ha : valid_pos a size = true
    · exact (hcount a ha).le
    · have hnm : a ∉ q := fun hmem => ha (hvalid a hmem)
      exact (List.count_eq_zero_of_not_mem hnm).trans_le (Nat.zero_le 1)
  have hlennat : q.length = totalCells size := by
    have hc := totalCells_cast h1 h2
    exact_mod_cast hlen.trans hc.symm
  exact (complete_aux endPos size (totalCells size + 1)).1 startPos ∅ [] q
    (Finset.empty_subset _) (by simp) hhead hlast hnd
    (fun c hc => ⟨hvalid c hc, Finset.not_mem_empty c⟩) hchain (by simpa using hlennat)

/-! ### The checked array model never fails an index -/

theorem visGet_eq_some {size : GridPt} {vis : List (List Bool)} {pos : GridPt}
    (hwf : visWF size vis) (hv : valid_pos pos size = true) :
    ∃ b, visGet vis pos = some b := by
  obtain ⟨hlen, hrows⟩ := hwf
  obtain ⟨h1, h2, h3, h4⟩ := valid_pos_iff.mp hv
  rw [visGet, if_neg (by omega)]
  have hr : pos.1.toNat < vis.length := by omega
  rw [List.getElem?_eq_getElem hr]
  have hrow := hrows vis[pos.1.toNat] (vis.getElem_mem hr)
  have hc : pos.2.toNat < vis[pos.1.toNat].length := by omega
  dsimp only [Option.bind, Bind.bind]
  exact ⟨_, List.getElem?_eq_getElem hc⟩

theorem visSet_eq_some {size : GridPt} {vis : List (List Bool)} {pos : GridPt} {b : Bool}
    (hwf : visWF size vis) (hv : valid_pos pos size = true) :
    ∃ vis', visSet vis pos b = some vis' ∧ visWF size vis' := by
  obtain ⟨hlen, hrows⟩ := hwf
  obtain ⟨h1, h2, h3, h4⟩ := valid_pos_iff.mp hv
  have hr : pos.1.toNat < vis.length := by omega
  have hrow := hrows vis[pos.1.toNat] (vis.getElem_mem hr)
  have hc : pos.2.toNat < vis[pos.1.toNat].length := by omega
  refine ⟨vis.set pos.1.toNat (vis[pos.1.toNat].set pos.2.toNat b), ?_, ?_, ?_⟩
  · simp only [visSet, if_neg (show ¬(pos.1 < 0 ∨ pos.2 < 0) by omega),
      List.getElem?_eq_getElem hr, List.getElem?_eq_getElem hc]
  · rw [List.length_set]
    exact hlen
  · intro row hrow'
    rcases List.mem_or_eq_of_mem_set hrow' with hmem | heq
    · exact hrows row hmem
    · rw [heq, List.length_set]
      exact hrows _ (vis.getElem_mem hr)

/-- The checked `_recursive` never fails an array access: on a well-formed
`rows × cols` array every `visGet`/`visSet` is in bounds, so the search always
returns `some` result, with a well-formed array inside it. -/
theorem recursiveC_isSome (endPos size : GridPt) (fuel : Nat) :
    (∀ pos vis path, visWF size vis →
      ∃ r, recursiveC endPos size fuel pos vis path = some r ∧ visWF size r.2.1) ∧
    (∀ pos dirns vis path, visWF size vis →
      ∃ r, recursiveDirnsC endPos size fuel pos dirns vis path = some r ∧
        visWF size r.2.1) := by
  induction fuel with
  | zero =>
    have hP : ∀ pos vis path, visWF size vis →
        ∃ r, recursiveC endPos size 0 pos vis path = some r ∧ visWF size r.2.1 := by
      intro pos vis path hwf
      exact ⟨(false, vis, path), by rw [recursiveC], hwf⟩
    refine ⟨hP, ?_⟩
    intro pos dirns
    induction dirns with
    | nil =>
      intro vis path hwf
      exact ⟨(false, vis, path), by rw [recursiveDirnsC], hwf⟩
    | cons dirn rest ih =>
      intro vis path hwf
      rw [recursiveDirnsC]
      obtain ⟨⟨b, v2, p2⟩, hres, hwf2⟩ := hP (pos.1 + dirn.1, pos.2 + dirn.2) vis path hwf
      rw [hres]
      cases b with
      | true => exact ⟨(true, v2, p2), rfl, hwf2⟩
      | false => exact ih v2 p2 hwf2
  | succ f ihf =>
    have hP : ∀ pos vis path, visWF size vis →
        ∃ r, recursiveC endPos size (f + 1) pos vis path = some r ∧ visWF size r.2.1 := by
      intro pos vis path hwf
      rw [recursiveC]
      by_cases hv : valid_pos pos size = true
      · rw [if_neg (by simp [hv])]
        obtain ⟨b, hget⟩ := visGet_eq_some hwf hv
        rw [hget]
        dsimp only
        cases b with
        | true => exact ⟨(false, vis, path), rfl, hwf⟩
        | false =>
          obtain ⟨vis1, hset, hwf1⟩ := @visSet_eq_some _ _ _ true hwf hv
          rw [hset]
          dsimp only
          by_cases hs : pos = endPos ∧ ((path ++ [pos]).length : Int) = size.1 * size.2
          · rw [if_pos hs]
            exact ⟨(true, vis1, path ++ [pos]), rfl, hwf1⟩
          · rw [if_neg hs]
            obtain ⟨⟨b2, v2, p2⟩, hres, hwf2⟩ :=
              ihf.2 pos searchDirns vis1 (path ++ [pos]) hwf1
            rw [hres]
            cases b2 with
            | true => exact ⟨(true, v2, p2), rfl, hwf2⟩
            | false =>
              obtain ⟨v3, hset2, hwf3⟩ := @visSet_eq_some _ _ _ false hwf2 hv
              have hset2' : visSet v2 pos false = some v3 := hset2
              refine ⟨(false, v3, p2.dropLast), ?_, hwf3⟩
              show (match visSet v2 pos false with
                | none => none
                | some v3 => some (false, v3, p2.dropLast)) =
                some ((false : Bool), v3, p2.dropLast)
              rw [hset2']
      · rw [if_pos (by simp [hv])]
        exact ⟨(false, vis, path), rfl, hwf⟩
    refine ⟨hP, ?_⟩
    intro pos dirns
    induction dirns with
    | nil =>
      intro vis path hwf
      exact ⟨(false, vis, path), by rw [recursiveDirnsC], hwf⟩
    | cons dirn rest ih =>
      intro vis path hwf
      rw [recursiveDirnsC]
      obtain ⟨⟨b, v2, p2⟩, hres, hwf2⟩ := hP (pos.1 + dirn.1, pos.2 + dirn.2) vis path hwf
      rw [hres]
      cases b with
      | true => exact ⟨(true, v2, p2), rfl, hwf2⟩
      | false => exact ih v2 p2 hwf2

/-- The checked non-recursive step never fails an array access, provided the
array is well-formed and every stacked cell is in bounds. -/
theorem nrStepC_isSome {endPos size : GridPt} {rpath : List GridPt} {rdirn : List Nat}
    {vis : List (List Bool)} (hwf : visWF size vis)
    (hvalid : ∀ c ∈ rpath, valid_pos c size = true) :
    (nrStepC endPos size rpath rdirn vis).isSome := by
  match rpath, rdirn with
  | [], _ => rfl
  | _ :: _, [] => rfl
  | pos :: restPath, d :: restDirn =>
    rw [nrStepC]
    have hpos := hvalid pos (List.mem_cons_self _ _)
    by_cases hs : pos = endPos ∧ ((pos :: restPath).length : Int) = size.1 * size.2
    · rw [if_pos hs]; rfl
    · rw [if_neg hs]
      by_cases hd : d ≥ searchDirns.length
      · rw [if_pos hd]
        obtain ⟨vis', hset, _⟩ := @visSet_eq_some _ _ _ false hwf hpos
        rw [hset]
        match restPath, restDirn with
        | [], _ => rfl
        | p2 :: rp2, d2 :: rd2 => rfl
        | _ :: _, [] => rfl
      · rw [if_neg hd]
        simp only [List.getD_eq_getElem?_getD]
        have hdlt : d < searchDirns.length := by omega
        rcases hdd : searchDirns[d]? with _ | dirn
        · rw [List.getElem?_eq_getElem hdlt] at hdd
          simp at hdd
        · simp only [Option.getD_some]
          by_cases hnv : valid_pos (pos.1 + dirn.1, pos.2 + dirn.2) size = true
          · rw [if_neg (by simp [hnv])]
            obtain ⟨b, hget⟩ := visGet_eq_some hwf hnv
            rw [hget]
            cases b with
            | true => rfl
            | false =>
              obtain ⟨vis', hset, _⟩ := @visSet_eq_some _ _ _ true hwf hnv
              rw [hset]
              rfl
          · rw [if_pos (by simp [hnv])]
            rfl

/-! ### Renderer lemmas -/

theorem toList_mk (cs : List Char) : (String.mk cs).toList = cs := rfl

theorem chrSet_preserve {ch : Char} {tpos spos : GridPt} {c : Char} (g : GridPt → Char)
    (hne : spos ≠ tpos) (hc : c ≠ ch)
    (hg : g tpos = ch) (hother : ∀ q, q ≠ tpos → g q ≠ ch) :
    chrSet g spos c tpos = ch ∧ ∀ q, q ≠ tpos → chrSet g spos c q ≠ ch := by
  constructor
  · rw [chrSet, if_neg (fun heq => hne heq.symm)]
    exact hg
  · intro q hq
    rw [chrSet]
    by_cases hqs : q = spos
    · rw [if_pos hqs]
      exact hc
    · rw [if_neg hqs]
      exact hother q hq

/-- An arrow write never lands on a position with even row and column divisible
by four (where the `S`/`E` glyphs live), and never writes `S` or `E`. -/
theorem chrArrow_preserve {ch : Char} {tpos : GridPt} (g : GridPt → Char)
    (pt1 pt2 : GridPt) (hpar : tpos.1 % 2 = 0 ∧ tpos.2 % 4 = 0)
    (hch : ch = 'S' ∨ ch = 'E')
    (hg : g tpos = ch) (hother : ∀ q, q ≠ tpos → g q ≠ ch) :
    chrArrow g pt1 pt2 tpos = ch ∧ ∀ q, q ≠ tpos → chrArrow g pt1 pt2 q ≠ ch := by
  have harrow : ∀ c : Char, (c = '↓' ∨ c = '↑' ∨ c = '→' ∨ c = '←') → c ≠ ch := by
    intro c hcs
    rcases hch with rfl | rfl <;> rcases hcs with rfl | rfl | rfl | rfl <;> decide
  rw [chrArrow]
  dsimp only
  by_cases e1 : ((pt2.1 - pt1.1, pt2.2 - pt1.2) : GridPt) = ((1 : Int), (0 : Int))
  · rw [if_pos e1]
    obtain ⟨ha, hb⟩ := Prod.ext_iff.mp e1
    refine chrSet_preserve g ?_ (harrow '↓' (Or.inl rfl)) hg hother
    intro heq
    have h1' : pt1.1 * 2 + (pt2.1 - pt1.1) = tpos.1 := congrArg Prod.fst heq
    omega
  · rw [if_neg e1]
    by_cases e2 : ((pt2.1 - pt1.1, pt2.2 - pt1.2) : GridPt) = ((-1 : Int), (0 : Int))
    · rw [if_pos e2]
      obtain ⟨ha, hb⟩ := Prod.ext_iff.mp e2
      refine chrSet_preserve g ?_ (harrow '↑' (Or.inr (Or.inl rfl))) hg hother
      intro heq
      have h1' : pt1.1 * 2 + (pt2.1 - pt1.1) = tpos.1 := congrArg Prod.fst heq
      omega
    · rw [if_neg e2]
      by_cases e3 : ((pt2.1 - pt1.1, pt2.2 - pt1.2) : GridPt) = ((0 : Int), (1 : Int))
      · rw [if_pos e3]
        obtain ⟨ha, hb⟩ := Prod.ext_iff.mp e3
        refine chrSet_preserve g ?_ (harrow '→' (Or.inr (Or.inr (Or.inl rfl)))) hg hother
        intro heq
        have h2' : pt1.2 * 4 + (pt2.2 - pt1.2) * 2 = tpos.2 := congrArg Prod.snd heq
        omega
      · rw [if_neg e3]
        by_cases e4 : ((pt2.1 - pt1.1, pt2.2 - pt1.2) : GridPt) = ((0 : Int), (-1 : Int))
        · rw [if_pos e4]
          obtain ⟨ha, hb⟩ := Prod.ext_iff.mp e4
          refine chrSet_preserve g ?_ (harrow '←' (Or.inr (Or.inr (Or.inr rfl)))) hg hother
          intro heq
          have h2' : pt1.2 * 4 + (pt2.2 - pt1.2) * 2 = tpos.2 := congrArg Prod.snd heq
          omega
        · rw [if_neg e4]
          exact ⟨hg, hother⟩

/-- The arrow-drawing loop preserves the uniqueness of a glyph placed at a
grid-point position. -/
theorem arrows_preserve {ch : Char} {tpos : GridPt}
    (hpar : tpos.1 % 2 = 0 ∧ tpos.2 % 4 = 0) (hch : ch = 'S' ∨ ch = 'E') :
    ∀ (ps : List (GridPt × GridPt)) (g : GridPt → Char),
      g tpos = ch → (∀ q, q ≠ tpos → g q ≠ ch) →
      (ps.foldl (fun g pq => chrArrow g pq.1 pq.2) g) tpos = ch ∧
        ∀ q, q ≠ tpos →
          (ps.foldl (fun g pq => chrArrow g pq.1 pq.2) g) q ≠ ch := by
  intro ps
  induction ps with
  | nil => intro g hg hother; exact ⟨hg, hother⟩
  | cons pq rest ih =>
    intro g hg hother
    rw [List.foldl_cons]
    obtain ⟨hg', hother'⟩ := chrArrow_preserve g pq.1 pq.2 hpar hch hg hother
    exact ih _ hg' hother'

/-- The base character grid contains neither `'S'` nor `'E'`. -/
theorem chrInit_ne {size : GridPt} {q : GridPt} {ch : Char}
    (hch : ch = 'S' ∨ ch = 'E') : chrInit size q ≠ ch := by
  rw [chrInit]
  rcases hch with rfl | rfl <;> split_ifs <;> decide

/-! ### Counting characters in the rendered rows -/

theorem count_map_range_zero (f : Nat → Char) (c : Char) (n : Nat)
    (h0 : ∀ j, j < n → f j ≠ c) :
    ((List.range n).map f).count c = 0 := by
  apply List.count_eq_zero_of_not_mem
  intro hmem
  rw [List.mem_map] at hmem
  obtain ⟨j, hj, hfj⟩ := hmem
  rw [List.mem_range] at hj
  exact h0 j hj hfj

theorem count_map_range_one (f : Nat → Char) (c : Char) :
    ∀ (n w : Nat), w < n → f w = c → (∀ j, j ≠ w → f j ≠ c) →
    ((List.range n).map f).count c = 1 := by
  intro n
  induction n with
  | zero => intro w hw; omega
  | succ n ih =>
    intro w hw h1 h0
    rw [List.range_succ, List.map_append, List.count_append]
    by_cases hwn : w = n
    · subst hwn
      rw [count_map_range_zero f c w (fun j hj => h0 j (by omega))]
      simp [h1]
    · rw [ih w (by omega) h1 h0]
      have hn : f n ≠ c := h0 n (fun hx => hwn hx.symm)
      have hz : List.count c [f n] = 0 :=
        List.count_eq_zero_of_not_mem (by
          simp only [List.mem_singleton]
          exact fun hx => hn hx.symm)
      simp only [List.map_cons, List.map_nil]
      rw [hz]

theorem sum_map_range_zero (F : Nat → Nat) :
    ∀ n : Nat, (∀ j, j < n → F j = 0) → ((List.range n).map F).sum = 0 := by
  intro n
  induction n with
  | zero => intro _; rfl
  | succ n ih =>
    intro h0
    rw [List.range_succ, List.map_append, List.sum_append,
      ih (fun j hj => h0 j (by omega))]
    simp [h0 n (by omega)]

theorem sum_map_range_one (F : Nat → Nat) :
    ∀ (n w : Nat), w < n → F w = 1 → (∀ j, j ≠ w → F j = 0) →
    ((List.range n).map F).sum = 1 := by
  intro n
  induction n with
  | zero => intro w hw; omega
  | succ n ih =>
    intro w hw h1 h0
    rw [List.range_succ, List.map_append, List.sum_append]
    by_cases hwn : w = n
    · subst hwn
      rw [sum_map_range_zero F w (fun j hj => h0 j (by omega))]
      simp [h1]
    · rw [ih w (by omega) h1 h0]
      simp [h0 n (fun hx => hwn hx.symm)]

/-- Unfolding `print_path` on a non-empty path. -/
theorem print_path_eq {path : List GridPt} {h l : GridPt} (size : GridPt)
    (hh : path.head? = some h) (hl : path.getLast? = some l) :
    print_path path size =
      some ((List.range (2 * size.1 - 1).toNat).map fun (i : Nat) =>
        String.mk ((List.range (4 * size.2 - 3).toNat).map fun (j : Nat) =>
          ((path.zip path.tail).foldl (fun g pq => chrArrow g pq.1 pq.2)
              (chrSet (chrSet (chrInit size) (h.1 * 2, h.2 * 4) 'S')
                (l.1 * 2, l.2 * 4) 'E'))
            ((i : Int), (j : Int)))) := by
  rw [print_path, hh]
  dsimp only [Option.bind, Bind.bind]
  rw [hl]

/-- The renderer succeeds on every non-empty path (its only failure is the
empty path). -/
theorem print_path_isSome {path : List GridPt} (size : GridPt) (hne : path ≠ []) :
    (print_path path size).isSome := by
  cases path with
  | nil => exact absurd rfl hne
  | cons p rest =>
    rw [@print_path_eq (p :: rest) p ((p :: rest).getLast (by simp)) size
      (show (p :: rest).head? = some p from rfl) (List.getLast?_eq_getLast _ _)]
    rfl

/-- Dimensions and glyph counts/positions of the rendered output, for a path
whose first and last cells are distinct in-bounds cells. -/
theorem print_path_glyphs {path : List GridPt} {size h l : GridPt}
    (hh : path.head? = some h) (hl : path.getLast? = some l) (hne : h ≠ l)
    (hhv : valid_pos h size = true) (hlv : valid_pos l size = true) :
    ∃ lines, print_path path size = some lines ∧
      (lines.length : Int) = 2 * size.1 - 1 ∧
      (∀ line ∈ lines, (line.length : Int) = 4 * size.2 - 3) ∧
      ((lines.map fun s => s.toList.count 'S').sum = 1) ∧
      ((lines.map fun s => s.toList.count 'E').sum = 1) ∧
      ((lines.getD (h.1 * 2).toNat "").toList.getD (h.2 * 4).toNat ' ' = 'S') ∧
      ((lines.getD (l.1 * 2).toNat "").toList.getD (l.2 * 4).toNat ' ' = 'E') := by
  obtain ⟨hh1, hh2, hh3, hh4⟩ := valid_pos_iff.mp hhv
  obtain ⟨hl1, hl2, hl3, hl4⟩ := valid_pos_iff.mp hlv
  set g2 : GridPt → Char :=
    chrSet (chrSet (chrInit size) (h.1 * 2, h.2 * 4) 'S') (l.1 * 2, l.2 * 4) 'E'
    with hg2def
  set g3 : GridPt → Char :=
    (path.zip path.tail).foldl (fun g pq => chrArrow g pq.1 pq.2) g2 with hg3def
  have hES_ne : ((l.1 * 2, l.2 * 4) : GridPt) ≠ (h.1 * 2, h.2 * 4) := by
    intro heq
    obtain ⟨e1, e2⟩ := Prod.ext_iff.mp heq
    exact hne (Prod.ext_iff.mpr ⟨by omega, by omega⟩)
  have hS2 : g2 (h.1 * 2, h.2 * 4) = 'S' ∧
      ∀ q, q ≠ ((h.1 * 2, h.2 * 4) : GridPt) → g2 q ≠ 'S' := by
    rw [hg2def]
    refine chrSet_preserve _ hES_ne (by decide) ?_ ?_
    · rw [chrSet, if_pos rfl]
    · intro q hq
      rw [chrSet]
      by_cases hqs : q = ((h.1 * 2, h.2 * 4) : GridPt)
      · exact absurd hqs hq
      · rw [if_neg hqs]
        exact chrInit_ne (Or.inl rfl)
  have hE2 : g2 (l.1 * 2, l.2 * 4) = 'E' ∧
      ∀ q, q ≠ ((l.1 * 2, l.2 * 4) : GridPt) → g2 q ≠ 'E' := by
    rw [hg2def]
    constructor
    · rw [chrSet, if_pos rfl]
    · intro q hq
      rw [chrSet, if_neg hq, chrSet]
      by_cases hqs : q = ((h.1 * 2, h.2 * 4) : GridPt)
      · rw [if_pos hqs]
        decide
      · rw [if_neg hqs]
        exact chrInit_ne (Or.inr rfl)
  have hS3 := @arrows_preserve 'S' ((h.1 * 2, h.2 * 4) : GridPt)
    ⟨by omega, by omega⟩ (Or.inl rfl) (path.zip path.tail) g2 hS2.1 hS2.2
  have hE3 := @arrows_preserve 'E' ((l.1 * 2, l.2 * 4) : GridPt)
    ⟨by omega, by omega⟩ (Or.inr rfl) (path.zip path.tail) g2 hE2.1 hE2.2
  rw [← hg3def] at hS3 hE3
  refine ⟨_, print_path_eq size hh hl, ?_, ?_, ?_, ?_, ?_, ?_⟩
  · simp only [List.length_map, List.length_range]
    omega
  · intro line hline
    rw [List.mem_map] at hline
    obtain ⟨i, _, hline⟩ := hline
    rw [← hline]
    show (((List.range (4 * size.2 - 3).toNat).map fun (j : Nat) =>
      g3 ((i : Int), (j : Int))).length : Int) = 4 * size.2 - 3
    simp only [List.length_map, List.length_range]
    omega
  · rw [List.map_map]
    refine sum_map_range_one _ _ (h.1 * 2).toNat (by omega) ?_ ?_
    · show (((List.range (4 * size.2 - 3).toNat).map fun (j : Nat) =>
        g3 (((h.1 * 2).toNat : Int), (j : Int))).count 'S') = 1
      refine count_map_range_one _ _ _ (h.2 * 4).toNat (by omega) ?_ ?_
      · have heq : ((((h.1 * 2).toNat : Int), (((h.2 * 4).toNat : Int))) : GridPt) =
            ((h.1 * 2, h.2 * 4) : GridPt) := Prod.ext_iff.mpr ⟨by omega, by omega⟩
        rw [heq]
        exact hS3.1
      · intro j hj
        apply hS3.2
        intro heq
        obtain ⟨e1, e2⟩ := Prod.ext_iff.mp heq
        exact hj (by omega)
    · intro i hi
      show (((List.range (4 * size.2 - 3).toNat).map fun (j : Nat) =>
        g3 ((i : Int), (j : Int))).count 'S') = 0
      apply count_map_range_zero
      intro j _
      apply hS3.2
      intro heq
      obtain ⟨e1, e2⟩ := Prod.ext_iff.mp heq
      exact hi (by omega)
  · rw [List.map_map]
    refine sum_map_range_one _ _ (l.1 * 2).toNat (by omega) ?_ ?_
    · show (((List.range (4 * size.2 - 3).toNat).map fun (j : Nat) =>
        g3 (((l.1 * 2).toNat : Int), (j : Int))).count 'E') = 1
      refine count_map_range_one _ _ _ (l.2 * 4).toNat (by omega) ?_ ?_
      · have heq : ((((l.1 * 2).toNat : Int), (((l.2 * 4).toNat : Int))) : GridPt) =
            ((l.1 * 2, l.2 * 4) : GridPt) := Prod.ext_iff.mpr ⟨by omega, by omega⟩
        rw [heq]
        exact hE3.1
      · intro j hj
        apply hE3.2
        intro heq
        obtain ⟨e1, e2⟩ := Prod.ext_iff.mp heq
        exact hj (by omega)
    · intro i hi
      show (((List.range (4 * size.2 - 3).toNat).map fun (j : Nat) =>
        g3 ((i : Int), (j : Int))).count 'E') = 0
      apply count_map_range_zero
      intro j _
      apply hE3.2
      intro heq
      obtain ⟨e1, e2⟩ := Prod.ext_iff.mp heq
      exact hi (by omega)
  · simp only [List.getD_eq_getElem?_getD]
    rw [List.getElem?_map,
      List.getElem?_range (show (h.1 * 2).toNat < (2 * size.1 - 1).toNat by omega)]
    simp only [Option.map_some', Option.getD_some, toList_mk]
    rw [List.getElem?_map,
      List.getElem?_range (show (h.2 * 4).toNat < (4 * size.2 - 3).toNat by omega)]
    simp only [Option.map_some', Option.getD_some]
    have heq : ((((h.1 * 2).toNat : Int), (((h.2 * 4).toNat : Int))) : GridPt) =
        ((h.1 * 2, h.2 * 4) : GridPt) := Prod.ext_iff.mpr ⟨by omega, by omega⟩
    rw [heq]
    exact hS3.1
  · simp only [List.getD_eq_getElem?_getD]
    rw [List.getElem?_map,
      List.getElem?_range (show (l.1 * 2).toNat < (2 * size.1 - 1).toNat by omega)]
    simp only [Option.map_some', Option.getD_some, toList_mk]
    rw [List.getElem?_map,
      List.getElem?_range (show (l.2 * 4).toNat < (4 * size.2 - 3).toNat by omega)]
    simp only [Option.map_some', Option.getD_some]
    have heq : ((((l.1 * 2).toNat : Int), (((l.2 * 4).toNat : Int))) : GridPt) =
        ((l.1 * 2, l.2 * 4) : GridPt) := Prod.ext_iff.mpr ⟨by omega, by omega⟩
    rw [heq]
    exact hE3.1


/-! ### Auxiliary facts for the claim theorems -/

/-- The freshly allocated visited array `np.zeros(size, dtype=bool)` has the
well-formed `rows × cols` shape. -/
theorem mkVis_wf (size : GridPt) : visWF size (mkVis size) := by
  constructor
  · simp [mkVis]
  · intro row hrow
    simp only [mkVis] at hrow
    have h := List.eq_of_mem_replicate hrow
    rw [h]
    simp

/-! ### The claims -/

/-- C1: for every valid input (start and end in bounds, start ≠ end) and
either strategy, if `solve_snake` returns a non-empty path then that path has
length exactly `rows * cols`, starts at `start`, ends at `end`, contains every
grid cell exactly once (and only grid cells), and every consecutive pair of
cells differs by exactly one of the four unit directions. -/
theorem solve_snake_valid_path (startPos endPos size : GridPt) (method : String)
    (path : List GridPt)
    (hm : method = "recursive" ∨ method = "non-recursive")
    (hs : valid_pos startPos size = true) (he : valid_pos endPos size = true)
    (hne : startPos ≠ endPos)
    (hret : solve_snake startPos endPos size method = .ok path)
    (hnonempty : path ≠ []) :
    isHamPath startPos endPos size path := by
  have hres : solve_snake startPos endPos size method =
      .ok (if (recursive_ endPos size (totalCells size + 1) startPos ∅ []).1
        then (recursive_ endPos size (totalCells size + 1) startPos ∅ []).2.2
        else []) := by
    rcases hm with rfl | rfl
    · exact solve_snake_rec_eq hs he hne
    · exact solve_snake_nonrec_eq hs he hne
  rw [hres] at hret
  rcases hb : (recursive_ endPos size (totalCells size + 1) startPos ∅ []).1 with _ | _
  · rw [hb] at hret
    simp at hret
    exact absurd hret hnonempty
  · rw [hb] at hret
    simp at hret
    rw [← hret]
    exact ham_of_success hs hb

/-- Witness for C1: on the 1×2 grid from `(0,0)` to `(0,1)`, the recursive
strategy returns `[(0,0), (0,1)]`, which is a Hamiltonian path. -/
theorem solve_snake_valid_path_witness :
    isHamPath (0, 0) (0, 1) (1, 2) [(0, 0), (0, 1)] :=
  solve_snake_valid_path (0, 0) (0, 1) (1, 2) "recursive" [(0, 0), (0, 1)]
    (Or.inl rfl) (by decide) (by decide) (by decide)
    (by simp +decide [solve_snake, recursive_, recursiveDirns, searchDirns,
      valid_pos, totalCells])
    (by decide)

/-- C2: on every valid input (start and end in bounds, start ≠ end) the
recursive and the non-recursive strategies of `solve_snake` return identical
results — the same path, or the same no-solution value. -/
theorem strategies_agree (startPos endPos size : GridPt)
    (hs : valid_pos startPos size = true) (he : valid_pos endPos size = true)
    (hne : startPos ≠ endPos) :
    solve_snake startPos endPos size "recursive" =
      solve_snake startPos endPos size "non-recursive" :=
  (solve_snake_rec_eq hs he hne).trans (solve_snake_nonrec_eq hs he hne).symm

/-- Witness for C2 at the 2×2 grid from `(0,0)` to `(1,1)`. -/
theorem strategies_agree_witness :
    solve_snake (0, 0) (1, 1) (2, 2) "recursive" =
      solve_snake (0, 0) (1, 1) (2, 2) "non-recursive" :=
  strategies_agree (0, 0) (1, 1) (2, 2) (by decide) (by decide) (by decide)

/-- C3: for every valid input, if `solve_snake` reports no solution (returns
the empty list) under either strategy, then no Hamiltonian path from start to
end exists on the grid — the search is exhaustive, with no false negatives. -/
theorem no_solution_exhaustive (startPos endPos size : GridPt) (method : String)
    (hm : method = "recursive" ∨ method = "non-recursive")
    (hs : valid_pos startPos size = true) (he : valid_pos endPos size = true)
    (hne : startPos ≠ endPos)
    (hret : solve_snake startPos endPos size method = .ok []) :
    ¬ ∃ q, isHamPath startPos endPos size q := by
  rintro ⟨q, hq⟩
  have hsucc := success_of_ham hq
  have hres : solve_snake startPos endPos size method =
      .ok (if (recursive_ endPos size (totalCells size + 1) startPos ∅ []).1
        then (recursive_ endPos size (totalCells size + 1) startPos ∅ []).2.2
        else []) := by
    rcases hm with rfl | rfl
    · exact solve_snake_rec_eq hs he hne
    · exact solve_snake_nonrec_eq hs he hne
  rw [hres, hsucc] at hret
  simp at hret
  have hham := ham_of_success hs hsucc
  rw [hret] at hham
  obtain ⟨hhead, _⟩ := hham
  simp at hhead

/-- Witness for C3: on the 2×2 grid the search from `(0,0)` to the diagonally
opposite `(1,1)` returns the empty list, so no Hamiltonian path exists. -/
theorem no_solution_exhaustive_witness :
    ¬ ∃ q, isHamPath (0, 0) (1, 1) (2, 2) q :=
  no_solution_exhaustive (0, 0) (1, 1) (2, 2) "recursive" (Or.inl rfl)
    (by decide) (by decide) (by decide)
    (by simp +decide [solve_snake, recursive_, recursiveDirns, searchDirns,
      valid_pos, totalCells])

/-- C4: `solve_snake` signals each precondition violation as an error before
any search begins — invalid start position, invalid end position, start equal
to end, and unknown strategy name, in that order — and a fully valid request
with no Hamiltonian path yields the non-error no-solution result `.ok []`
under either strategy, distinguishable from the error cases. -/
theorem error_taxonomy (startPos endPos size : GridPt) :
    (¬ valid_pos startPos size = true → ∀ method,
      solve_snake startPos endPos size method = .error "Invalid start position") ∧
    (valid_pos startPos size = true → ¬ valid_pos endPos size = true → ∀ method,
      solve_snake startPos endPos size method = .error "Invalid end position") ∧
    (valid_pos startPos size = true → valid_pos endPos size = true →
      startPos = endPos → ∀ method,
      solve_snake startPos endPos size method =
        .error "Start and end positions must be different.") ∧
    (valid_pos startPos size = true → valid_pos endPos size = true →
      startPos ≠ endPos → ∀ method, method ≠ "recursive" →
      method ≠ "non-recursive" →
      solve_snake startPos endPos size method = .error "Unknown method") ∧
    (valid_pos startPos size = true → valid_pos endPos size = true →
      startPos ≠ endPos → (¬ ∃ q, isHamPath startPos endPos size q) →
      ∀ method, method = "recursive" ∨ method = "non-recursive" →
      solve_snake startPos endPos size method = .ok []) := by
  refine ⟨?_, ?_, ?_, ?_, ?_⟩
  · intro hbad method
    rw [solve_snake, if_pos (by simpa using hbad)]
  · intro hs hbad method
    rw [solve_snake, if_neg (by simp [hs]), if_pos (by simpa using hbad)]
  · intro hs he heq method
    rw [solve_snake, if_neg (by simp [hs]), if_neg (by simp [he]), if_pos heq]
  · intro hs he hne method hm1 hm2
    rw [solve_snake, if_neg (by simp [hs]), if_neg (by simp [he]), if_neg hne,
      if_neg hm1, if_neg hm2]
  · intro hs he hne hnoham method hm
    have hb : (recursive_ endPos size (totalCells size + 1) startPos ∅ []).1
        = false := by
      rcases hbb : (recursive_ endPos size (totalCells size + 1) startPos ∅ []).1
        with _ | _
      · rfl
      · exact absurd ⟨_, ham_of_success hs hbb⟩ hnoham
    have hres : solve_snake startPos endPos size method =
        .ok (if (recursive_ endPos size (totalCells size + 1) startPos ∅ []).1
          then (recursive_ endPos size (totalCells size + 1) startPos ∅ []).2.2
          else []) := by
      rcases hm with rfl | rfl
      · exact solve_snake_rec_eq hs he hne
      · exact solve_snake_nonrec_eq hs he hne
    rw [hres, hb]
    simp

/-- Witness for C4: each error branch hit at a concrete input on the 5×5 grid,
and the unsolvable 2×2 request yielding the non-error `.ok []`. -/
theorem error_taxonomy_witness :
    solve_snake (5, 0) (0, 0) (5, 5) "recursive" = .error "Invalid start position" ∧
    solve_snake (0, 0) (9, 9) (5, 5) "recursive" = .error "Invalid end position" ∧
    solve_snake (2, 2) (2, 2) (5, 5) "recursive" =
      .error "Start and end positions must be different." ∧
    solve_snake (0, 0) (1, 1) (5, 5) "bogus" = .error "Unknown method" ∧
    solve_snake (0, 0) (1, 1) (2, 2) "recursive" = .ok [] := by
  refine ⟨?_, ?_, ?_, ?_, ?_⟩
  · exact (error_taxonomy (5, 0) (0, 0) (5, 5)).1 (by decide) "recursive"
  · exact (error_taxonomy (0, 0) (9, 9) (5, 5)).2.1 (by decide) (by decide) "recursive"
  · exact (error_taxonomy (2, 2) (2, 2) (5, 5)).2.2.1 (by decide) (by decide) rfl
      "recursive"
  · exact (error_taxonomy (0, 0) (1, 1) (5, 5)).2.2.2.1 (by decide) (by decide)
      (by decide) "bogus" (by decide) (by decide)
  · exact (error_taxonomy (0, 0) (1, 1) (2, 2)).2.2.2.2 (by decide) (by decide)
      (by decide)
      (fun hex =>
        absurd (success_of_ham hex.choose_spec)
          (by simp +decide [recursive_, recursiveDirns, searchDirns, valid_pos,
            totalCells]))
      "recursive" (Or.inl rfl)

/-- C5: the visited set holds exactly the cells of the in-progress path at
every observation point, and backtracking unmarks exactly the popped cell.
For the recursive strategy: from any state satisfying the invariant, the final
state satisfies `visited = path cells` again, and a failed call returns the
caller's `visited` and `path` bit-for-bit (exact restoration).  For the
non-recursive strategy: every loop iteration (`nrStep`) that continues
preserves `visited = cells of the path stack`. -/
theorem visited_iff_on_path (endPos size : GridPt) :
    (∀ fuel pos visited path,
      StateInv size visited path →
      (∀ lp, path.getLast? = some lp → adjacentB lp pos = true) →
      ((recursive_ endPos size fuel pos visited path).2.1 =
          ((recursive_ endPos size fuel pos visited path).2.2).toFinset ∧
        ((recursive_ endPos size fuel pos visited path).1 = false →
          recursive_ endPos size fuel pos visited path = (false, visited, path)))) ∧
    (∀ (rpath : List GridPt) (rdirn : List Nat) (visited : Finset GridPt)
        (rpath' : List GridPt) (rdirn' : List Nat) (visited' : Finset GridPt),
      rpath.Nodup → visited = rpath.toFinset →
      nrStep endPos size rpath rdirn visited = .inl (rpath', rdirn', visited') →
      visited' = rpath'.toFinset) := by
  constructor
  · intro fuel pos visited path hinv hlink
    rcases hb : (recursive_ endPos size fuel pos visited path).1 with _ | _
    · refine ⟨?_, fun _ => recursive_restore hb⟩
      rw [recursive_restore hb]
      exact hinv.1
    · rcases hres : recursive_ endPos size fuel pos visited path with ⟨b, v', p'⟩
      rw [hres] at hb
      have hb' : b = true := hb
      subst hb'
      obtain ⟨_, _, _, _, hinv', _, _⟩ :=
        (sound_aux endPos size fuel).1 pos visited path v' p' hinv hlink hres
      refine ⟨hinv'.1, ?_⟩
      intro hfalse
      simp at hfalse
  · intro rpath rdirn visited rpath' rdirn' visited' hnd hv hstep
    rcases rpath with _ | ⟨pos, restPath⟩
    · rcases rdirn with _ | ⟨d, restDirn⟩ <;> simp [nrStep] at hstep
    rcases rdirn with _ | ⟨d, restDirn⟩
    · simp [nrStep] at hstep
    by_cases hsucc : pos = endPos ∧ ((pos :: restPath).length : Int) = size.1 * size.2
    · rw [nrStep_found hsucc] at hstep
      simp at hstep
    · by_cases hd : searchDirns.length ≤ d
      · rcases restPath with _ | ⟨p2, rp2⟩
        · rw [nrStep_pop_nil hsucc hd] at hstep
          simp at hstep
        · rcases restDirn with _ | ⟨d2, rd2⟩
          · have hval : nrStep endPos size (pos :: p2 :: rp2) [d] visited
                = .inr [] := by
              simp only [nrStep]
              rw [if_neg hsucc, if_pos hd]
            rw [hval] at hstep
            simp at hstep
          · rw [nrStep_pop_cons hsucc hd] at hstep
            simp only [Sum.inl.injEq, Prod.mk.injEq] at hstep
            obtain ⟨h1, h2, h3⟩ := hstep
            rw [← h1, ← h3, hv]
            have hnotin : pos ∉ p2 :: rp2 := (List.nodup_cons.mp hnd).1
            simp only [List.toFinset_cons]
            rw [Finset.erase_insert (by simpa using hnotin)]
      · by_cases hbail : ¬ valid_pos (pos.1 + (searchDirns.getD d (0, 0)).1,
            pos.2 + (searchDirns.getD d (0, 0)).2) size ∨
            (pos.1 + (searchDirns.getD d (0, 0)).1,
              pos.2 + (searchDirns.getD d (0, 0)).2) ∈ visited
        · rw [nrStep_skip hsucc hd rfl hbail] at hstep
          simp only [Sum.inl.injEq, Prod.mk.injEq] at hstep
          obtain ⟨h1, h2, h3⟩ := hstep
          rw [← h1, ← h3]
          exact hv
        · rw [nrStep_push hsucc hd rfl hbail] at hstep
          simp only [Sum.inl.injEq, Prod.mk.injEq] at hstep
          obtain ⟨h1, h2, h3⟩ := hstep
          rw [← h1, ← h3, hv]
          simp

/-- Witness for C5: the recursive invariant at the 1×2 search from the empty
state, and one machine step (a bailing direction probe) from the initial stack
`[(0,0)]`, preserving `visited = path cells`. -/
theorem visited_iff_on_path_witness :
    ((recursive_ (0, 1) (1, 2) 3 (0, 0) ∅ []).2.1 =
        ((recursive_ (0, 1) (1, 2) 3 (0, 0) ∅ []).2.2).toFinset ∧
      ((recursive_ (0, 1) (1, 2) 3 (0, 0) ∅ []).1 = false →
        recursive_ (0, 1) (1, 2) 3 (0, 0) ∅ [] = (false, ∅, []))) ∧
    (insert ((0, 0) : GridPt) ∅ : Finset GridPt) =
      ([(0, 0)] : List GridPt).toFinset := by
  constructor
  · exact (visited_iff_on_path (0, 1) (1, 2)).1 3 (0, 0) ∅ []
      ⟨by simp, List.nodup_nil, by simp, List.chain'_nil⟩
      (by intro lp h; simp at h)
  · exact (visited_iff_on_path (0, 1) (1, 2)).2 [(0, 0)] [0] (insert (0, 0) ∅)
      [(0, 0)] [1] (insert (0, 0) ∅) (by simp) (by simp) rfl

/-- C6: for every valid input both strategies terminate: the non-recursive
while-loop always reaches a `return` (the loop, run on its allotted fuel,
produces a result), and the recursive search never needs recursion depth
beyond `rows * cols + 1` — any fuel budget of at least `totalCells size + 1`
produces the identical result, so the search runs to completion. -/
theorem search_terminates (startPos endPos size : GridPt)
    (hs : valid_pos startPos size = true)
    (_he : valid_pos endPos size = true) (_hne : startPos ≠ endPos) :
    (nonRecursive_ startPos endPos size).isSome ∧
    (∀ fuel, totalCells size + 1 ≤ fuel →
      recursive_ endPos size fuel startPos ∅ [] =
        recursive_ endPos size (totalCells size + 1) startPos ∅ []) := by
  have h1 : 0 < size.1 := by have := valid_pos_iff.mp hs; omega
  have h2 : 0 < size.2 := by have := valid_pos_iff.mp hs; omega
  constructor
  · rw [nonRecursive_eq_recursive hs]
    rfl
  · intro fuel hf
    have hcard : (∅ : Finset GridPt).card = 0 := Finset.card_empty
    exact (fuelIrrel_aux endPos size fuel).1 (totalCells size + 1) startPos ∅ []
      (Finset.empty_subset _) h1 h2 (by omega) (by omega)

/-- Witness for C6: termination of both strategies on the 1×2 grid. -/
theorem search_terminates_witness :
    (nonRecursive_ (0, 0) (0, 1) (1, 2)).isSome ∧
    (∀ fuel, totalCells (1, 2) + 1 ≤ fuel →
      recursive_ (0, 1) (1, 2) fuel (0, 0) ∅ [] =
        recursive_ (0, 1) (1, 2) (totalCells (1, 2) + 1) (0, 0) ∅ []) :=
  search_terminates (0, 0) (0, 1) (1, 2) (by decide) (by decide) (by decide)

/-- C7: on the 1×4 grid with start `(0,0)` and end `(0,3)`, both strategies
return exactly the straight-line path `[(0,0), (0,1), (0,2), (0,3)]`. -/
theorem grid_1x4_unique_path :
    solve_snake (0, 0) (0, 3) (1, 4) "recursive"
        = .ok [(0, 0), (0, 1), (0, 2), (0, 3)] ∧
    solve_snake (0, 0) (0, 3) (1, 4) "non-recursive"
        = .ok [(0, 0), (0, 1), (0, 2), (0, 3)] := by
  have hval : (if (recursive_ (0, 3) (1, 4) (totalCells (1, 4) + 1) (0, 0) ∅ []).1
      then (recursive_ (0, 3) (1, 4) (totalCells (1, 4) + 1) (0, 0) ∅ []).2.2
      else []) = [((0 : Int), (0 : Int)), (0, 1), (0, 2), (0, 3)] := by
    simp +decide [recursive_, recursiveDirns, searchDirns, valid_pos, totalCells]
  constructor
  · rw [solve_snake_rec_eq (by decide) (by decide) (by decide), hval]
  · rw [solve_snake_nonrec_eq (by decide) (by decide) (by decide), hval]

/-- C8: rendering a path whose first and last cells are distinct in-bounds
cells produces exactly `2*rows - 1` lines of exactly `4*cols - 3` characters
each, with exactly one `S` glyph, placed at the start cell, and exactly one
`E` glyph, placed at the end cell. -/
theorem render_dimensions_glyphs (path : List GridPt) (size h l : GridPt)
    (hh : path.head? = some h) (hl : path.getLast? = some l) (hne : h ≠ l)
    (hv : ∀ c ∈ path, valid_pos c size = true) :
    ∃ lines, print_path path size = some lines ∧
      (lines.length : Int) = 2 * size.1 - 1 ∧
      (∀ line ∈ lines, (line.length : Int) = 4 * size.2 - 3) ∧
      ((lines.map fun s => s.toList.count 'S').sum = 1) ∧
      ((lines.map fun s => s.toList.count 'E').sum = 1) ∧
      ((lines.getD (h.1 * 2).toNat "").toList.getD (h.2 * 4).toNat ' ' = 'S') ∧
      ((lines.getD (l.1 * 2).toNat "").toList.getD (l.2 * 4).toNat ' ' = 'E') := by
  have hmemh : h ∈ path := by
    cases path with
    | nil => simp at hh
    | cons a t =>
      simp only [List.head?_cons, Option.some.injEq] at hh
      rw [← hh]
      exact List.mem_cons_self a t
  have hmeml : l ∈ path := by
    obtain ⟨hne', heq⟩ := List.mem_getLast?_eq_getLast (Option.mem_def.mpr hl)
    rw [heq]
    exact List.getLast_mem hne'
  exact print_path_glyphs hh hl hne (hv h hmemh) (hv l hmeml)

/-- Witness for C8: rendering the 1×2 path `[(0,0), (0,1)]`. -/
theorem render_dimensions_glyphs_witness :
    ∃ lines, print_path [((0, 0) : GridPt), (0, 1)] (1, 2) = some lines ∧
      (lines.length : Int) = 2 * ((1, 2) : GridPt).1 - 1 ∧
      (∀ line ∈ lines, (line.length : Int) = 4 * ((1, 2) : GridPt).2 - 3) ∧
      ((lines.map fun s => s.toList.count 'S').sum = 1) ∧
      ((lines.map fun s => s.toList.count 'E').sum = 1) ∧
      ((lines.getD (((0, 0) : GridPt).1 * 2).toNat "").toList.getD
        (((0, 0) : GridPt).2 * 4).toNat ' ' = 'S') ∧
      ((lines.getD (((0, 1) : GridPt).1 * 2).toNat "").toList.getD
        (((0, 1) : GridPt).2 * 4).toNat ' ' = 'E') :=
  render_dimensions_glyphs [(0, 0), (0, 1)] (1, 2) (0, 0) (0, 1) rfl rfl
    (by decide) (by decide)

/-- C9 (counterexample): the claim says an empty path renders as nothing or as
a defined empty-grid output rather than failing; in fact `print_path` fails on
the empty path — Python raises `IndexError` at `path[0]` — modelled here as
`none`. -/
theorem render_empty_path_fails : print_path [] ((3, 3) : GridPt) = none := rfl

/-- C9 (amended): the renderer fails on the empty path (an index error at
`path[0]`) rather than producing a defined empty output; on every non-empty
path all of whose cells are in bounds — the domain on which the character-grid
model is exact, since every glyph write then lands inside the
`(2*rows-1) × (4*cols-3)` window — it renders successfully.  (For non-empty
paths with out-of-bounds cells the Python code can also fail on an
out-of-window character write; no statement is made about them here.) -/
theorem render_error_only_empty :
    (∀ (path : List GridPt) (size : GridPt), path ≠ [] →
      (∀ c ∈ path, valid_pos c size = true) →
      (print_path path size).isSome) ∧
    (∀ size : GridPt, print_path [] size = none) :=
  ⟨fun _ size hne _ => print_path_isSome size hne, fun _ => rfl⟩

/-- Witness for the amended C9: the renderer succeeds on an in-bounds
one-cell path. -/
theorem render_error_only_empty_witness :
    (print_path [((0, 0) : GridPt)] (1, 1)).isSome :=
  render_error_only_empty.1 [(0, 0)] (1, 1) (by decide) (by decide)

/-- C10: with the visited array modelled as a bounds-checked `rows × cols`
boolean array in which negative indices are rejected (so numpy's
negative-index wrap-around counts as a failure), no array access made by
either strategy ever fails: the checked recursive search always returns a
result on a well-formed array, every checked loop iteration of the
non-recursive strategy succeeds when the path stack holds in-bounds cells, and
the initial `visited[*start_pos] = True` write succeeds for a valid start. -/
theorem visited_index_safe (endPos size : GridPt) :
    (∀ (fuel : Nat) (pos : GridPt) (vis : List (List Bool)) (path : List GridPt),
      visWF size vis →
      ∃ r, recursiveC endPos size fuel pos vis path = some r ∧ visWF size r.2.1) ∧
    (∀ (rpath : List GridPt) (rdirn : List Nat) (vis : List (List Bool)),
      visWF size vis → (∀ c ∈ rpath, valid_pos c size = true) →
      (nrStepC endPos size rpath rdirn vis).isSome) ∧
    (∀ startPos, valid_pos startPos size = true →
      (visSet (mkVis size) startPos true).isSome) := by
  refine ⟨?_, ?_, ?_⟩
  · intro fuel pos vis path hwf
    exact (recursiveC_isSome endPos size fuel).1 pos vis path hwf
  · intro rpath rdirn vis hwf hval
    exact nrStepC_isSome hwf hval
  · intro startPos hv
    obtain ⟨v, hset, _⟩ := @visSet_eq_some size (mkVis size) startPos true
      (mkVis_wf size) hv
    rw [hset]
    rfl

/-- Witness for C10: checked accesses on the 1×2 grid all succeed. -/
theorem visited_index_safe_witness :
    (∃ r, recursiveC (0, 1) (1, 2) 3 (0, 0) (mkVis (1, 2)) [] = some r ∧
      visWF (1, 2) r.2.1) ∧
    (nrStepC (0, 1) (1, 2) [(0, 0)] [0] (mkVis (1, 2))).isSome ∧
    (visSet (mkVis (1, 2)) (0, 0) true).isSome := by
  refine ⟨?_, ?_, ?_⟩
  · exact (visited_index_safe (0, 1) (1, 2)).1 3 (0, 0) (mkVis (1, 2)) []
      (mkVis_wf (1, 2))
  · exact (visited_index_safe (0, 1) (1, 2)).2.1 [(0, 0)] [0] (mkVis (1, 2))
      (mkVis_wf (1, 2)) (by decide)
  · exact (visited_index_safe (0, 1) (1, 2)).2.2 (0, 0) (by decide)

end GridSnake
